import Mathlib

/-!
Verification of the Ripe cryptography library (muflihun/ripe) against its
natural-language specification.

The repository ships `include/Ripe.h`, which declares the API and contains a
handful of inline function bodies (the hex-key `encryptAES` overload,
`expectedAESCipherLength`, `maxRSABlockSize`, `expectedBase64Length`).  Those
inline bodies are embedded here directly from the source.  The remaining
bodies (AES/RSA primitives, base64, hex helpers, the envelope builder) are not
part of the repository snapshot, so they are modelled from the specification,
as marked in each doc comment.

Machine-integer conventions: the reference platform is LP64 (`std::size_t` is
64 bits, `unsigned int` is 32 bits).  Arithmetic is carried out on `Nat` with
an explicit `% 2 ^ 64` (or `% 2 ^ 32`) exactly where the C++ computation can
wrap.  Byte strings are `List Nat` with every element `< 256`.
-/

namespace Ripe

/-- AES block size in bytes.  The header only declares `static const int
AES_BSIZE`; the value 16 is the AES block size fixed by the spec
(§3 InitializationVector: "byte sequence of exactly 16 bytes (AES block
size)"). -/
def AES_BSIZE : Nat := 16

/-- Embedded from `Ripe.h` line 139-142:
`return (plainDataSize / AES_BSIZE + 1) * AES_BSIZE;` computed in
`std::size_t` arithmetic (64-bit, wrapping). -/
def expectedAESCipherLength (plainDataSize : Nat) : Nat :=
  ((plainDataSize / AES_BSIZE + 1) * AES_BSIZE) % 2 ^ 64

/-- Embedded from `Ripe.h` line 204-207:
`return ((keySize - 384) / 8) + 7;` where `keySize : std::size_t` and the
result is converted to the `unsigned int` return type.  The subtraction
wraps modulo `2 ^ 64`; the return conversion truncates modulo `2 ^ 32`. -/
def maxRSABlockSize (keySize : Nat) : Nat :=
  (((keySize + (2 ^ 64 - 384)) % 2 ^ 64) / 8 + 7) % 2 ^ 32

/-- Embedded from `Ripe.h` line 263-266:
`return ((4 * n / 3) + 3) & ~0x03;` in `std::size_t` arithmetic.  On LP64,
`~0x03` is the 64-bit mask `2 ^ 64 - 4`; the product `4 * n` wraps modulo
`2 ^ 64`. -/
def expectedBase64Length (n : Nat) : Nat :=
  ((4 * n % 2 ^ 64) / 3 + 3) &&& (2 ^ 64 - 4)

/-- Modelled from the spec (§4.3): the chunking helper of `RSACipher`
("splits `data` into an ordered sequence of blocks each ≤
`maxRSABlockSize(keyBits)`"); the implementation file is not in the
repository snapshot.  `chunksOf n l` splits `l` into consecutive pieces of
`n` elements (the last piece may be shorter). -/
def chunksOf {α : Type} : Nat → List α → List (List α)
  | _, [] => []
  | 0, _ :: _ => []
  | n + 1, x :: xs =>
      (x :: xs).take (n + 1) :: chunksOf (n + 1) ((x :: xs).drop (n + 1))
termination_by _ l => l.length
decreasing_by
  simp only [List.length_drop, List.length_cons]
  omega

/-- Modelled from the spec (§4.3): `encryptRSA` splits the plaintext into
blocks of at most `maxRSABlockSize keyBits` bytes; each block is encrypted
independently.  Only the block structure is needed by the block-count
claims; the per-block encryption is `rsaEncryptBlock` defined later. -/
def rsaChunks (keyBits : Nat) (data : List Nat) : List (List Nat) :=
  chunksOf (maxRSABlockSize keyBits) data

/-- Modelled from the spec (§4.1 Codec): the base64 alphabet of
`base64Encode` (standard alphabet, §6); the implementation file is not in
the repository snapshot.  ASCII codes of `A`-`Z`, `a`-`z`, `0`-`9`, `+`,
`/`. -/
def b64Alphabet : List Nat :=
  [65, 66, 67, 68, 69, 70, 71, 72, 73, 74, 75, 76, 77, 78, 79, 80, 81, 82,
   83, 84, 85, 86, 87, 88, 89, 90,
   97, 98, 99, 100, 101, 102, 103, 104, 105, 106, 107, 108, 109, 110, 111,
   112, 113, 114, 115, 116, 117, 118, 119, 120, 121, 122,
   48, 49, 50, 51, 52, 53, 54, 55, 56, 57, 43, 47]

/-- Character for a 6-bit value. -/
def b64Chr (v : Nat) : Nat := b64Alphabet.getD v 65

/-- Modelled from the spec (§4.1 Codec): `base64Encode` — "standard
reversible conversion"; the implementation file is not in the repository
snapshot.  Standard base64: each 3-byte group becomes 4 alphabet
characters; a trailing 1- or 2-byte group is padded with `=` (ASCII 61). -/
def base64Encode : List Nat → List Nat
  | [] => []
  | [a] => [b64Chr (a / 4), b64Chr (a % 4 * 16), 61, 61]
  | [a, b] => [b64Chr (a / 4), b64Chr (a % 4 * 16 + b / 16), b64Chr (b % 16 * 4), 61]
  | a :: b :: c :: rest =>
      b64Chr (a / 4) :: b64Chr (a % 4 * 16 + b / 16) :: b64Chr (b % 16 * 4 + c / 64) ::
        b64Chr (c % 64) :: base64Encode rest

/-- Inverse of `b64Chr`; `none` on characters outside the alphabet. -/
def b64Val (c : Nat) : Option Nat :=
  if 65 ≤ c ∧ c ≤ 90 then some (c - 65)
  else if 97 ≤ c ∧ c ≤ 122 then some (c - 71)
  else if 48 ≤ c ∧ c ≤ 57 then some (c + 4)
  else if c = 43 then some 62
  else if c = 47 then some 63
  else none

/-- Modelled from the spec (§4.1 Codec): `base64Decode` — "standard
reversible conversion; decode fails with `InvalidEncoding` on malformed
input (bad padding, invalid alphabet)"; the implementation file is not in
the repository snapshot. -/
def base64Decode : List Nat → Option (List Nat)
  | [] => some []
  | c1 :: c2 :: c3 :: c4 :: rest => do
      let v1 ← b64Val c1
      let v2 ← b64Val c2
      if c3 = 61 ∧ c4 = 61 ∧ rest = [] then
        some [v1 * 4 + v2 / 16]
      else do
        let v3 ← b64Val c3
        if c4 = 61 ∧ rest = [] then
          some [v1 * 4 + v2 / 16, v2 % 16 * 16 + v3 / 4]
        else do
          let v4 ← b64Val c4
          let tail ← base64Decode rest
          some ((v1 * 4 + v2 / 16) :: (v2 % 16 * 16 + v3 / 4) :: (v3 % 4 * 64 + v4) :: tail)
  | _ => none

/-- ASCII character for a hex nibble, lowercase (spec §4.1: "hex lowercase
canonical"). -/
def hexDigitChr (v : Nat) : Nat := if v < 10 then 48 + v else 87 + v

/-- Modelled from the spec (§4.1 Codec): `stringToHex` (`Ripe.h` line 299,
"convert string to hexdecimal e.g, khn = 6b686e") — two lowercase hex
characters per byte; the implementation file is not in the repository
snapshot. -/
def stringToHex : List Nat → List Nat
  | [] => []
  | b :: r => hexDigitChr (b / 16) :: hexDigitChr (b % 16) :: stringToHex r

/-- Value of a hex character; `none` on non-hex input. -/
def hexVal (c : Nat) : Option Nat :=
  if 48 ≤ c ∧ c ≤ 57 then some (c - 48)
  else if 97 ≤ c ∧ c ≤ 102 then some (c - 87)
  else if 65 ≤ c ∧ c ≤ 70 then some (c - 55)
  else none

/-- Modelled from the spec (§4.1 Codec): `hexToString` (`Ripe.h` line 304)
— "decode fails with `InvalidEncoding` on odd length or non-hex
characters"; the implementation file is not in the repository snapshot. -/
def hexToString : List Nat → Option (List Nat)
  | [] => some []
  | [_] => none
  | hi :: lo :: r => do
      let v1 ← hexVal hi
      let v2 ← hexVal lo
      let rest ← hexToString r
      some ((v1 * 16 + v2) :: rest)

/-- ASCII decimal digits of a number, most significant first. -/
def decDigits (n : Nat) : List Nat :=
  if n < 10 then [48 + n] else decDigits (n / 10) ++ [48 + n % 10]
termination_by n
decreasing_by
  exact Nat.div_lt_self (by omega) (by omega)

/-- Number of decimal digits (length of `decDigits`). -/
def numDigits (n : Nat) : Nat :=
  if n < 10 then 1 else numDigits (n / 10) + 1
termination_by n
decreasing_by
  exact Nat.div_lt_self (by omega) (by omega)

/-- Accumulator loop of the decimal parser. -/
def decParseGo : Nat → List Nat → Option Nat
  | acc, [] => some acc
  | acc, d :: ds =>
      if 48 ≤ d ∧ d ≤ 57 then decParseGo (acc * 10 + (d - 48)) ds else none

/-- Modelled from the spec (§4.4): parsing the decimal `cipherLength` field
of an envelope ("non-numeric length ... yields `ParseError`"); the
implementation file is not in the repository snapshot. -/
def decParse (l : List Nat) : Option Nat :=
  match l with
  | [] => none
  | _ => decParseGo 0 l

/-! ### AES (FIPS-197) block cipher, modelled from the spec

The spec (§4.2) requires AES-CBC with block size 16, key sizes {16, 24, 32}
and padding that always appends a full extra block; the implementation file
(which delegates the block cipher to a crypto provider) is not in the
repository snapshot, so the cipher is modelled here as the FIPS-197 AES
algorithm.  Bytes are `Nat` below 256; GF(2^8) arithmetic uses the AES
polynomial x^8 + x^4 + x^3 + x + 1. -/

/-- Multiplication by x in GF(2^8) (AES polynomial). -/
def xtime (x : Nat) : Nat := if x < 128 then 2 * x else (2 * x - 256) ^^^ 27

/-- The AES S-box table (FIPS-197 Figure 7: the affine transform of the
GF(2^8) multiplicative inverse). -/
def sboxTab : List Nat :=
  [99, 124, 119, 123, 242, 107, 111, 197, 48, 1, 103, 43, 254, 215, 171, 118,
   202, 130, 201, 125, 250, 89, 71, 240, 173, 212, 162, 175, 156, 164, 114, 192,
   183, 253, 147, 38, 54, 63, 247, 204, 52, 165, 229, 241, 113, 216, 49, 21,
   4, 199, 35, 195, 24, 150, 5, 154, 7, 18, 128, 226, 235, 39, 178, 117,
   9, 131, 44, 26, 27, 110, 90, 160, 82, 59, 214, 179, 41, 227, 47, 132,
   83, 209, 0, 237, 32, 252, 177, 91, 106, 203, 190, 57, 74, 76, 88, 207,
   208, 239, 170, 251, 67, 77, 51, 133, 69, 249, 2, 127, 80, 60, 159, 168,
   81, 163, 64, 143, 146, 157, 56, 245, 188, 182, 218, 33, 16, 255, 243, 210,
   205, 12, 19, 236, 95, 151, 68, 23, 196, 167, 126, 61, 100, 93, 25, 115,
   96, 129, 79, 220, 34, 42, 144, 136, 70, 238, 184, 20, 222, 94, 11, 219,
   224, 50, 58, 10, 73, 6, 36, 92, 194, 211, 172, 98, 145, 149, 228, 121,
   231, 200, 55, 109, 141, 213, 78, 169, 108, 86, 244, 234, 101, 122, 174, 8,
   186, 120, 37, 46, 28, 166, 180, 198, 232, 221, 116, 31, 75, 189, 139, 138,
   112, 62, 181, 102, 72, 3, 246, 14, 97, 53, 87, 185, 134, 193, 29, 158,
   225, 248, 152, 17, 105, 217, 142, 148, 155, 30, 135, 233, 206, 85, 40, 223,
   140, 161, 137, 13, 191, 230, 66, 104, 65, 153, 45, 15, 176, 84, 187, 22]

/-- The inverse AES S-box table (FIPS-197 Figure 14). -/
def invSboxTab : List Nat :=
  [82, 9, 106, 213, 48, 54, 165, 56, 191, 64, 163, 158, 129, 243, 215, 251,
   124, 227, 57, 130, 155, 47, 255, 135, 52, 142, 67, 68, 196, 222, 233, 203,
   84, 123, 148, 50, 166, 194, 35, 61, 238, 76, 149, 11, 66, 250, 195, 78,
   8, 46, 161, 102, 40, 217, 36, 178, 118, 91, 162, 73, 109, 139, 209, 37,
   114, 248, 246, 100, 134, 104, 152, 22, 212, 164, 92, 204, 93, 101, 182, 146,
   108, 112, 72, 80, 253, 237, 185, 218, 94, 21, 70, 87, 167, 141, 157, 132,
   144, 216, 171, 0, 140, 188, 211, 10, 247, 228, 88, 5, 184, 179, 69, 6,
   208, 44, 30, 143, 202, 63, 15, 2, 193, 175, 189, 3, 1, 19, 138, 107,
   58, 145, 17, 65, 79, 103, 220, 234, 151, 242, 207, 206, 240, 180, 230, 115,
   150, 172, 116, 34, 231, 173, 53, 133, 226, 249, 55, 232, 28, 117, 223, 110,
   71, 241, 26, 113, 29, 41, 197, 137, 111, 183, 98, 14, 170, 24, 190, 27,
   252, 86, 62, 75, 198, 210, 121, 32, 154, 219, 192, 254, 120, 205, 90, 244,
   31, 221, 168, 51, 136, 7, 199, 49, 177, 18, 16, 89, 39, 128, 236, 95,
   96, 81, 127, 169, 25, 181, 74, 13, 45, 229, 122, 159, 147, 201, 156, 239,
   160, 224, 59, 77, 174, 42, 245, 176, 200, 235, 187, 60, 131, 83, 153, 97,
   23, 43, 4, 126, 186, 119, 214, 38, 225, 105, 20, 99, 85, 33, 12, 125]

/-- The AES S-box as a function. -/
def sbox (b : Nat) : Nat := sboxTab.getD b 0

/-- The inverse AES S-box as a function. -/
def invSbox (b : Nat) : Nat := invSboxTab.getD b 0

/-- GF(2^8) multiplication by 2 (MixColumns coefficient). -/
def mul2 (x : Nat) : Nat := xtime x

/-- GF(2^8) multiplication by 3. -/
def mul3 (x : Nat) : Nat := xtime x ^^^ x

/-- GF(2^8) multiplication by 9 (InvMixColumns coefficient). -/
def mul9 (x : Nat) : Nat := xtime (xtime (xtime x)) ^^^ x

/-- GF(2^8) multiplication by 11. -/
def mul11 (x : Nat) : Nat := xtime (xtime (xtime x)) ^^^ xtime x ^^^ x

/-- GF(2^8) multiplication by 13. -/
def mul13 (x : Nat) : Nat := xtime (xtime (xtime x)) ^^^ xtime (xtime x) ^^^ x

/-- GF(2^8) multiplication by 14. -/
def mul14 (x : Nat) : Nat := xtime (xtime (xtime x)) ^^^ xtime (xtime x) ^^^ xtime x

/-- MixColumns row 0 on one column. -/
def mc0 (a b c d : Nat) : Nat := mul2 a ^^^ mul3 b ^^^ c ^^^ d

/-- MixColumns row 1 on one column. -/
def mc1 (a b c d : Nat) : Nat := a ^^^ mul2 b ^^^ mul3 c ^^^ d

/-- MixColumns row 2 on one column. -/
def mc2 (a b c d : Nat) : Nat := a ^^^ b ^^^ mul2 c ^^^ mul3 d

/-- MixColumns row 3 on one column. -/
def mc3 (a b c d : Nat) : Nat := mul3 a ^^^ b ^^^ c ^^^ mul2 d

/-- InvMixColumns row 0 on one column. -/
def imc0 (a b c d : Nat) : Nat := mul14 a ^^^ mul11 b ^^^ mul13 c ^^^ mul9 d

/-- InvMixColumns row 1 on one column. -/
def imc1 (a b c d : Nat) : Nat := mul9 a ^^^ mul14 b ^^^ mul11 c ^^^ mul13 d

/-- InvMixColumns row 2 on one column. -/
def imc2 (a b c d : Nat) : Nat := mul13 a ^^^ mul9 b ^^^ mul14 c ^^^ mul11 d

/-- InvMixColumns row 3 on one column. -/
def imc3 (a b c d : Nat) : Nat := mul11 a ^^^ mul13 b ^^^ mul9 c ^^^ mul14 d

/-- Byte-wise xor of two byte strings (AddRoundKey / CBC chaining). -/
def xorBytes (s k : List Nat) : List Nat := List.zipWith (fun x y => x ^^^ y) s k

/-- SubBytes on a state. -/
def subBytes (s : List Nat) : List Nat := s.map sbox

/-- InvSubBytes on a state. -/
def invSubBytes (s : List Nat) : List Nat := s.map invSbox

/-- ShiftRows on a 16-byte column-major state. -/
def shiftRowsL : List Nat → List Nat
  | [s0, s1, s2, s3, s4, s5, s6, s7, s8, s9, s10, s11, s12, s13, s14, s15] =>
      [s0, s5, s10, s15, s4, s9, s14, s3, s8, s13, s2, s7, s12, s1, s6, s11]
  | s => s

/-- InvShiftRows on a 16-byte column-major state. -/
def invShiftRowsL : List Nat → List Nat
  | [s0, s1, s2, s3, s4, s5, s6, s7, s8, s9, s10, s11, s12, s13, s14, s15] =>
      [s0, s13, s10, s7, s4, s1, s14, s11, s8, s5, s2, s15, s12, s9, s6, s3]
  | s => s

/-- MixColumns on a 16-byte column-major state. -/
def mixColumns : List Nat → List Nat
  | [a0, a1, a2, a3, b0, b1, b2, b3, c0, c1, c2, c3, d0, d1, d2, d3] =>
      [mc0 a0 a1 a2 a3, mc1 a0 a1 a2 a3, mc2 a0 a1 a2 a3, mc3 a0 a1 a2 a3,
       mc0 b0 b1 b2 b3, mc1 b0 b1 b2 b3, mc2 b0 b1 b2 b3, mc3 b0 b1 b2 b3,
       mc0 c0 c1 c2 c3, mc1 c0 c1 c2 c3, mc2 c0 c1 c2 c3, mc3 c0 c1 c2 c3,
       mc0 d0 d1 d2 d3, mc1 d0 d1 d2 d3, mc2 d0 d1 d2 d3, mc3 d0 d1 d2 d3]
  | s => s

/-- InvMixColumns on a 16-byte column-major state. -/
def invMixColumns : List Nat → List Nat
  | [a0, a1, a2, a3, b0, b1, b2, b3, c0, c1, c2, c3, d0, d1, d2, d3] =>
      [imc0 a0 a1 a2 a3, imc1 a0 a1 a2 a3, imc2 a0 a1 a2 a3, imc3 a0 a1 a2 a3,
       imc0 b0 b1 b2 b3, imc1 b0 b1 b2 b3, imc2 b0 b1 b2 b3, imc3 b0 b1 b2 b3,
       imc0 c0 c1 c2 c3, imc1 c0 c1 c2 c3, imc2 c0 c1 c2 c3, imc3 c0 c1 c2 c3,
       imc0 d0 d1 d2 d3, imc1 d0 d1 d2 d3, imc2 d0 d1 d2 d3, imc3 d0 d1 d2 d3]
  | s => s

/-- Left-rotate a 4-byte word (key schedule RotWord). -/
def rotWordL : List Nat → List Nat
  | [] => []
  | a :: rest => rest ++ [a]

/-- SubWord of the key schedule. -/
def subWord (w : List Nat) : List Nat := w.map sbox

/-- Iterated `xtime`. -/
def xtimes : Nat → Nat → Nat
  | 0, x => x
  | n + 1, x => xtimes n (xtime x)

/-- Round constant byte `rcon j = x^(j-1)` in GF(2^8). -/
def rcon (j : Nat) : Nat := xtimes (j - 1) 1

/-- The `temp` word of one key-expansion step (FIPS-197 §5.2): the previous
word, transformed when the word index `i = acc.length` is a multiple of
`Nk` (RotWord, SubWord, Rcon) or, for `Nk > 6`, when `i mod Nk = 4`
(SubWord). -/
def ksTemp (nk : Nat) (acc : List (List Nat)) : List Nat :=
  let i := acc.length
  let prev := acc.getD (i - 1) []
  if i % nk = 0 then xorBytes (subWord (rotWordL prev)) [rcon (i / nk), 0, 0, 0]
  else if 6 < nk ∧ i % nk = 4 then subWord prev
  else prev

/-- Key-expansion loop (FIPS-197 §5.2): appends `fuel` more 4-byte words to
`acc`; each new word is `w[i-Nk] xor temp`. -/
def expandLoop (nk : Nat) : Nat → List (List Nat) → List (List Nat)
  | 0, acc => acc
  | fuel + 1, acc =>
      expandLoop nk fuel
        (acc ++ [xorBytes (acc.getD (acc.length - nk) []) (ksTemp nk acc)])

/-- Full key schedule: the list of `Nr + 1` 16-byte round keys for a key of
16, 24 or 32 bytes (`Nr = Nk + 6`). -/
def keySchedule (key : List Nat) : List (List Nat) :=
  let nk := key.length / 4
  (chunksOf 4 (expandLoop nk (4 * (nk + 7) - nk) (chunksOf 4 key))).map List.flatten

/-- AES encryption rounds after the initial AddRoundKey: a full round per
key, except the last round omits MixColumns. -/
def encRounds : List (List Nat) → List Nat → List Nat
  | [], s => s
  | [k], s => xorBytes (shiftRowsL (subBytes s)) k
  | k :: ks, s => encRounds ks (xorBytes (mixColumns (shiftRowsL (subBytes s))) k)

/-- Inverse of `encRounds`. -/
def decRounds : List (List Nat) → List Nat → List Nat
  | [], s => s
  | [k], s => invSubBytes (invShiftRowsL (xorBytes s k))
  | k :: ks, s => invSubBytes (invShiftRowsL (invMixColumns (xorBytes (decRounds ks s) k)))

/-- One-block AES encryption under a round-key list. -/
def aesEncBlock (rks : List (List Nat)) (s : List Nat) : List Nat :=
  match rks with
  | [] => s
  | k0 :: rest => encRounds rest (xorBytes s k0)

/-- One-block AES decryption under a round-key list. -/
def aesDecBlock (rks : List (List Nat)) (s : List Nat) : List Nat :=
  match rks with
  | [] => s
  | k0 :: rest => xorBytes (decRounds rest s) k0

/-- CBC encryption of a block list: each plaintext block is xored with the
previous ciphertext block (initially the IV) before block encryption. -/
def cbcEnc (rks : List (List Nat)) : List Nat → List (List Nat) → List (List Nat)
  | _, [] => []
  | prev, b :: bs =>
      let c := aesEncBlock rks (xorBytes prev b)
      c :: cbcEnc rks c bs

/-- CBC decryption of a block list. -/
def cbcDec (rks : List (List Nat)) : List Nat → List (List Nat) → List (List Nat)
  | _, [] => []
  | prev, c :: cs => xorBytes prev (aesDecBlock rks c) :: cbcDec rks c cs

/-- Modelled from the spec (§4.2): block padding — "padding always appends
a full extra block even when input is already block-aligned ... padding
content encodes the pad length for unambiguous removal on decrypt"
(PKCS#7). -/
def pad16 (data : List Nat) : List Nat :=
  data ++ List.replicate (16 - data.length % 16) (16 - data.length % 16)

/-- Modelled from the spec (§4.2): `decrypt` "validates and strips padding;
fails ... if padding bytes are inconsistent". -/
def unpad16 (l : List Nat) : Option (List Nat) :=
  match l.getLast? with
  | none => none
  | some p =>
      if 1 ≤ p ∧ p ≤ 16 ∧ p ≤ l.length ∧ (l.drop (l.length - p)).all (fun b => b = p) then
        some (l.take (l.length - p))
      else none

/-- Modelled from the spec (§4.2): the `encryptAES` primitive (`Ripe.h`
line 82) — AES-CBC encryption of `data` under `key` (16, 24 or 32 bytes)
and a 16-byte IV; key/IV size violations fail (`InvalidKeySize` /
`InvalidIVSize`).  The implementation file is not in the repository
snapshot. -/
def encryptAES (data key iv : List Nat) : Option (List Nat) :=
  if (key.length = 16 ∨ key.length = 24 ∨ key.length = 32) ∧ iv.length = 16 then
    some (List.flatten (cbcEnc (keySchedule key) iv (chunksOf 16 (pad16 data))))
  else none

/-- Modelled from the spec (§4.2): the `decryptAES` primitive (`Ripe.h`
line 87) — reverses `encryptAES`, validating sizes and padding.  The
implementation file is not in the repository snapshot. -/
def decryptAES (data key iv : List Nat) : Option (List Nat) :=
  if (key.length = 16 ∨ key.length = 24 ∨ key.length = 32) ∧ iv.length = 16 ∧
      data.length % 16 = 0 then
    unpad16 (List.flatten (cbcDec (keySchedule key) iv (chunksOf 16 data)))
  else none

/-- C-string semantics of a `const char*` argument with no length: the
callee reads up to (not including) the first NUL byte. -/
def cStr (mem : List Nat) : List Nat := mem.takeWhile (fun b => b != 0)

/-- Embedded from `Ripe.h` line 123-126: the hex-key convenience overload
`encryptAES(const std::string& buffer, const std::string& hexKey,
std::vector<byte>& iv)`, whose body is
`encryptAES(buffer.c_str(), (const byte*)hexToString(hexKey).c_str(),
hexKey.size() / 2, iv)`.  `buffer.c_str()` is read by the primitive as a
NUL-terminated C string (`cStr`); the key pointer is read for exactly
`hexKey.size() / 2` bytes (modelled by `List.take`; reading past the end of
the decoded key would be undefined behaviour).  A `hexToString` failure
(malformed hex) is propagated as `none`. -/
def encryptAEShexKey (buffer hexKey iv : List Nat) : Option (List Nat) :=
  match hexToString hexKey with
  | none => none
  | some keyStr => encryptAES (cStr buffer) (keyStr.take (hexKey.length / 2)) iv

/-- Modelled from the spec (§4.4): `prepareData` (`Ripe.h` line 288) —
"generates a fresh random IV, AES-encrypts `data` under the key decoded
from `hexKey`, base64-encodes the ciphertext, and emits
`<cipherLength>:<ivHex>:[<clientId>:]<base64Payload>`".  The implementation
file is not in the repository snapshot.  The fresh random IV is passed
explicitly (`iv`), making the randomness an explicit input; `data` and
`clientId` are `const char*` and are read as C strings.  58 is ASCII `:`. -/
def prepareData (data hexKey clientId iv : List Nat) : Option (List Nat) :=
  match hexToString hexKey with
  | none => none
  | some key =>
      match encryptAES (cStr data) key iv with
      | none => none
      | some ct =>
          some (decDigits ct.length ++ (58 :: (stringToHex iv ++ (58 ::
            ((if cStr clientId = [] then [] else cStr clientId ++ [58]) ++
              base64Encode ct)))))

/-- Modelled from the spec (§4.4): `expectedDataSize` (`Ripe.h` line 294) —
"predicts total envelope length (digits of cipherLength + 1 + 32 hex IV
chars + 1 + optional (clientIdSize+1) + base64(expectedAESCipherLength(
plainSize)) length)".  The implementation file is not in the repository
snapshot. -/
def expectedDataSize (plainDataSize clientIdSize : Nat) : Nat :=
  numDigits (expectedAESCipherLength plainDataSize) + 1 + 32 + 1 +
    (if 0 < clientIdSize then clientIdSize + 1 else 0) +
    expectedBase64Length (expectedAESCipherLength plainDataSize)

/-- Split a byte string at every occurrence of the byte `d`. -/
def splitOnByte (d : Nat) : List Nat → List (List Nat)
  | [] => [[]]
  | c :: r =>
      if c = d then [] :: splitOnByte d r
      else
        match splitOnByte d r with
        | [] => [[c]]
        | f :: rest => (c :: f) :: rest

/-- Modelled from the spec (§4.4): field handling of the envelope parser —
decimal length, base64-decoded payload whose length must match, hex-decoded
IV, then AES decryption under the key decoded from `hexKey` (the
`decryptAES` overload of `Ripe.h` line 133 with `isBase64 = true`).  The
implementation file is not in the repository snapshot. -/
def parseFields (lenF ivF payF hexKey : List Nat) : Option (List Nat) := do
  let len ← decParse lenF
  let ct ← base64Decode payF
  if ct.length = len then do
    let key ← hexToString hexKey
    let iv ← hexToString ivF
    decryptAES ct key iv
  else none

/-- Modelled from the spec (§4.4): the envelope parsing/decryption
counterpart — "Field parsing follows a small linear state machine ...
malformed structure (wrong field count, non-numeric length, length mismatch
against decoded payload) yields `ParseError`".  The field count is 3
(no client id) or 4 (with client id).  The implementation file is not in
the repository snapshot. -/
def parsePrepared (env hexKey : List Nat) : Option (List Nat) :=
  match splitOnByte 58 env with
  | [lenF, ivF, payF] => parseFields lenF ivF payF hexKey
  | [lenF, ivF, _, payF] => parseFields lenF ivF payF hexKey
  | _ => none

/-! ### RSA, modelled from the spec

The spec (§4.3) requires asymmetric public-key encryption with a padding
scheme of fixed overhead consistent with `maxRSABlockSize` (the exact
padding scheme is explicitly an open question in §9 of the spec), block
chunking bounded by `maxRSABlockSize`, and key generation of modulus size
`bits`.  The implementation file is not in the repository snapshot; RSA is
modelled as textbook RSA with an injective fixed-overhead padding, and the
PEM key strings of `Ripe.h`'s `KeyPair` are modelled by their mathematical
content. -/

/-- Fuelled modular exponentiation by repeated squaring (`fuel` bounds the
bit length of the exponent). -/
def powModT : Nat → Nat → Nat → Nat → Nat
  | 0, _, _, n => 1 % n
  | f + 1, a, b, n =>
      if b = 0 then 1 % n
      else
        let h := powModT f (a * a % n) (b / 2) n
        if b % 2 = 1 then h * a % n else h

/-- Modular exponentiation `a ^ b % n`. -/
def powMod (a b n : Nat) : Nat := powModT b a b n

/-- Big-endian bytes-to-integer conversion. -/
def ofBytesBE (l : List Nat) : Nat := l.foldl (fun acc b => acc * 256 + b) 0

/-- Big-endian integer-to-bytes conversion with fixed width `k`. -/
def toBytesBE : Nat → Nat → List Nat
  | 0, _ => []
  | k + 1, m => toBytesBE k (m / 256) ++ [m % 256]

/-- Modelled from the spec (§4.3): the RSA block padding — zero bytes, then
a 0x01 marker, then the message, filling exactly `k` bytes.  The spec fixes
only the overhead budget (via `maxRSABlockSize`), not the scheme (§9 "Open
question"). -/
def rsaPad (k : Nat) (msg : List Nat) : List Nat :=
  List.replicate (k - msg.length - 1) 0 ++ 1 :: msg

/-- Inverse of `rsaPad`: strip leading zeros and the 0x01 marker. -/
def rsaUnpad (l : List Nat) : Option (List Nat) :=
  match l.dropWhile (fun b => b == 0) with
  | 1 :: rest => some rest
  | _ => none

/-- One RSA block encryption: pad to `k` bytes, convert to an integer,
raise to `e` modulo `n`, convert back to `k` bytes. -/
def rsaEncryptBlock (n e k : Nat) (msg : List Nat) : List Nat :=
  toBytesBE k (powMod (ofBytesBE (rsaPad k msg)) e n)

/-- One RSA block decryption. -/
def rsaDecryptBlock (n d k : Nat) (ct : List Nat) : Option (List Nat) :=
  rsaUnpad (toBytesBE k (powMod (ofBytesBE ct) d n))

/-- The mathematical content of an RSA key pair (`Ripe.h`'s `KeyPair`
carries the same data as PEM text). -/
structure RSAParams where
  p : Nat
  q : Nat
  e : Nat
  d : Nat
  bits : Nat

/-- RSA modulus of a key pair. -/
def rsaN (kp : RSAParams) : Nat := kp.p * kp.q

/-- Modelled from the spec (§4.3): what `generateRSAKeyPair bits`
guarantees about a returned key pair — a fresh pair of modulus size `bits`
(distinct primes, exponents inverse modulo the totient, `bits` a supported
RSA size: a multiple of 8, at least 384 and within the `unsigned int`
range used by `maxRSABlockSize`).  Key generation itself delegates to the
crypto provider, which is outside the repository. -/
def generatedRSAKeyPair (bits : Nat) (kp : RSAParams) : Prop :=
  kp.bits = bits ∧ Nat.Prime kp.p ∧ Nat.Prime kp.q ∧ kp.p ≠ kp.q ∧
  2 ^ (bits - 1) ≤ kp.p * kp.q ∧ kp.p * kp.q < 2 ^ bits ∧
  kp.e * kp.d % ((kp.p - 1) * (kp.q - 1)) = 1 ∧
  8 ∣ bits ∧ 384 ≤ bits ∧ bits ≤ 2 ^ 32

/-- Modelled from the spec (§4.3): `encryptRSA` — the plaintext is split
into blocks of at most `maxRSABlockSize keyBits` bytes and each block is
encrypted independently; the block sequence models the delimited
concatenation of the spec. -/
def encryptRSA (kp : RSAParams) (data : List Nat) : List (List Nat) :=
  (rsaChunks kp.bits data).map (rsaEncryptBlock (rsaN kp) kp.e (kp.bits / 8))

/-- Block-wise decryption loop of `decryptRSA`. -/
def decryptBlocks (n d k : Nat) : List (List Nat) → Option (List (List Nat))
  | [] => some []
  | ct :: rest => do
      let m ← rsaDecryptBlock n d k ct
      let ms ← decryptBlocks n d k rest
      some (m :: ms)

/-- Modelled from the spec (§4.3): `decryptRSA` — reverse of `encryptRSA`,
reassembling the chunks in order. -/
def decryptRSA (kp : RSAParams) (cts : List (List Nat)) : Option (List Nat) :=
  (decryptBlocks (rsaN kp) kp.d (kp.bits / 8) cts).map List.flatten

/-- A concrete Proth prime `3 * 2 ^ 189 + 1`, first factor of a 384-bit
RSA modulus used to witness the round trip. -/
def pW : Nat := 2353913150770005286438421033702874906038383291674012942337

/-- A concrete Proth prime `7 * 2 ^ 190 + 1`, second factor of the witness
modulus. -/
def qW : Nat := 10984928036926691336712631490613416228179122027812060397569

/-- Private exponent matching `e = 65537` for the witness modulus
`pW * qW`. -/
def dW : Nat := 16006463799557921560731874711173293157693306258169892018684045185092838023514044110189555480865269330335137932443649

/-- The concrete 384-bit witness key pair. -/
def kpW : RSAParams := ⟨pW, qW, 65537, dW, 384⟩

theorem chunksOf_nil {α : Type} (n : Nat) : chunksOf n ([] : List α) = [] := by
  rw [chunksOf]

theorem chunksOf_cons_of_ne_nil {α : Type} (n : Nat) (l : List α) (h : l ≠ []) :
    chunksOf (n + 1) l = l.take (n + 1) :: chunksOf (n + 1) (l.drop (n + 1)) := by
  match l, h with
  | x :: xs, _ => rw [chunksOf]

theorem chunksOf_length_le {α : Type} (n : Nat) (l : List α) (h1 : l ≠ []) (h2 : l.length ≤ n + 1) :
    chunksOf (n + 1) l = [l] := by
  rw [chunksOf_cons_of_ne_nil n l h1]
  rw [List.take_of_length_le h2, List.drop_eq_nil_of_le h2, chunksOf_nil]

/-- C6 helper: `maxRSABlockSize` agrees with the pure formula on the range
of realistic RSA modulus sizes (no wrap below 384, no truncation to
`unsigned int` up to `2 ^ 35`). -/
theorem maxRSABlockSize_formula (k : Nat) (h1 : 384 ≤ k) (h2 : k < 2 ^ 35) :
    maxRSABlockSize k = (k - 384) / 8 + 7 := by
  unfold maxRSABlockSize
  have he : k + (2 ^ 64 - 384) = (k - 384) + 2 ^ 64 := by omega
  have hs : (k - 384) % 2 ^ 64 = k - 384 := Nat.mod_eq_of_lt (by omega)
  rw [he, Nat.add_mod_right, hs]
  have hb : (k - 384) / 8 + 7 < 2 ^ 32 := by omega
  exact Nat.mod_eq_of_lt hb

/-- C6: RSA block-size formula: for every key size `keyBits` (in the valid
RSA range: at least 384 and below `2 ^ 35`, where neither the `size_t`
subtraction wraps nor the `unsigned int` return truncates),
`maxRSABlockSize keyBits = (keyBits - 384) / 8 + 7`; in particular
`maxRSABlockSize 2048 = 215`, data of exactly 215 bytes is chunked (hence
encrypted/decrypted) in one block, and 216 bytes requires two blocks. -/
theorem claim_C6_maxRSABlockSize (keyBits : Nat) (h1 : 384 ≤ keyBits) (h2 : keyBits < 2 ^ 35) :
    maxRSABlockSize keyBits = (keyBits - 384) / 8 + 7 ∧
    maxRSABlockSize 2048 = 215 ∧
    (∀ data : List Nat, data.length = 215 → (rsaChunks 2048 data).length = 1) ∧
    (∀ data : List Nat, data.length = 216 → (rsaChunks 2048 data).length = 2) := by
  have h2048 : maxRSABlockSize 2048 = 215 := by unfold maxRSABlockSize; norm_num
  refine ⟨maxRSABlockSize_formula keyBits h1 h2, h2048, ?_, ?_⟩
  · intro data hlen
    unfold rsaChunks
    rw [h2048]
    have hne : data ≠ [] := by
      intro h; rw [h] at hlen; simp at hlen
    rw [chunksOf_length_le 214 data hne (by omega)]
    rfl
  · intro data hlen
    unfold rsaChunks
    rw [h2048]
    have hne : data ≠ [] := by
      intro h; rw [h] at hlen; simp at hlen
    rw [chunksOf_cons_of_ne_nil 214 data hne]
    have hlen2 : (data.drop 215).length = 1 := by
      rw [List.length_drop, hlen]
    have hne2 : data.drop 215 ≠ [] := by
      intro h; rw [h] at hlen2; simp at hlen2
    rw [chunksOf_length_le 214 (data.drop 215) hne2 (by omega)]
    rfl

/-- C6 witness: the hypotheses hold at `keyBits = 2048` and the formula
gives 215 there. -/
theorem claim_C6_maxRSABlockSize_witness :
    (384 ≤ 2048 ∧ 2048 < 2 ^ 35) ∧ maxRSABlockSize 2048 = (2048 - 384) / 8 + 7 :=
  ⟨by decide, (claim_C6_maxRSABlockSize 2048 (by decide) (by decide)).1⟩

/-- C9 counterexample: the claim as stated says that for `keySize < 384` the
function returns `((keySize - 384) mod 2 ^ 64) / 8 + 7` (the value computed
in `std::size_t` before the return).  At `keySize = 0` that value is
`2 ^ 61 - 41 = 2305843009213693911`, but the `unsigned int` return type
truncates it modulo `2 ^ 32`, so the function actually returns
`2 ^ 32 - 41 = 4294967255`. -/
theorem claim_C9_counterexample :
    maxRSABlockSize 0 = 4294967255 ∧
    ((0 + (2 ^ 64 - 384)) % 2 ^ 64) / 8 + 7 = 2305843009213693911 ∧
    maxRSABlockSize 0 ≠ ((0 + (2 ^ 64 - 384)) % 2 ^ 64) / 8 + 7 := by
  refine ⟨?_, ?_, ?_⟩
  · unfold maxRSABlockSize; norm_num
  · norm_num
  · unfold maxRSABlockSize; norm_num

/-- C9 (amended): for `keySize < 384` the `size_t` subtraction wraps modulo
`2 ^ 64` and the function returns `(((keySize - 384) mod 2 ^ 64) / 8 + 7)
mod 2 ^ 32` — reduced modulo `2 ^ 32` by the `unsigned int` return type.
For `keySize < 328` this is an enormous positive value (at least
`2 ^ 32 - 41`); for `328 ≤ keySize < 384` the truncation makes it a small
value below 7.  In no case is it a negative number or an error. -/
theorem claim_C9_maxRSABlockSize_wrap (k : Nat) (hk : k < 384) :
    maxRSABlockSize k = (((k + (2 ^ 64 - 384)) % 2 ^ 64) / 8 + 7) % 2 ^ 32 ∧
    (k < 328 → 2 ^ 32 - 41 ≤ maxRSABlockSize k ∧ maxRSABlockSize k < 2 ^ 32) ∧
    (328 ≤ k → maxRSABlockSize k < 7) := by
  have hmod : (k + (2 ^ 64 - 384)) % 2 ^ 64 = k + (2 ^ 64 - 384) :=
    Nat.mod_eq_of_lt (by omega)
  have hdiv : (k + (2 ^ 64 - 384)) / 8 = 2 ^ 61 - 48 + k / 8 := by
    have : k + (2 ^ 64 - 384) = 8 * (2 ^ 61 - 48) + k := by omega
    rw [this, Nat.mul_add_div (by omega)]
  have hval : maxRSABlockSize k = (2 ^ 61 - 41 + k / 8) % 2 ^ 32 := by
    unfold maxRSABlockSize
    rw [hmod, hdiv]
    have harg : 2 ^ 61 - 48 + k / 8 + 7 = 2 ^ 61 - 41 + k / 8 := by omega
    rw [harg]
  have hk8 : k / 8 < 48 := by omega
  refine ⟨by unfold maxRSABlockSize; rfl, ?_, ?_⟩
  · intro h328
    have hj : k / 8 ≤ 40 := by omega
    have heq : 2 ^ 61 - 41 + k / 8 = 2 ^ 32 * (2 ^ 29 - 1) + (2 ^ 32 - 41 + k / 8) := by omega
    rw [hval, heq, Nat.mul_add_mod, Nat.mod_eq_of_lt (by omega)]
    omega
  · intro h328
    have hj : 41 ≤ k / 8 := by omega
    have heq : 2 ^ 61 - 41 + k / 8 = 2 ^ 32 * 2 ^ 29 + (k / 8 - 41) := by omega
    rw [hval, heq, Nat.mul_add_mod, Nat.mod_eq_of_lt (by omega)]
    omega

/-- C9 witness: at `keySize = 0` the wrap produces `2 ^ 32 - 41`, an
enormous positive value. -/
theorem claim_C9_maxRSABlockSize_wrap_witness :
    (0 : Nat) < 384 ∧
    maxRSABlockSize 0 = (((0 + (2 ^ 64 - 384)) % 2 ^ 64) / 8 + 7) % 2 ^ 32 :=
  ⟨by decide, (claim_C9_maxRSABlockSize_wrap 0 (by decide)).1⟩

/-- C10: for every `n` with `n + 16` not overflowing `std::size_t`,
`expectedAESCipherLength n` is the smallest multiple of 16 strictly greater
than `n`: `n < expectedAESCipherLength n ≤ n + 16`, `16` divides it, and any
multiple of 16 strictly above `n` is at least as large. -/
theorem claim_C10_expectedAESCipherLength (n : Nat) (h : n + 16 < 2 ^ 64) :
    n < expectedAESCipherLength n ∧
    expectedAESCipherLength n ≤ n + 16 ∧
    16 ∣ expectedAESCipherLength n ∧
    (∀ m : Nat, n < m → 16 ∣ m → expectedAESCipherLength n ≤ m) := by
  have hv : expectedAESCipherLength n = (n / 16 + 1) * 16 := by
    unfold expectedAESCipherLength AES_BSIZE
    have h1 : (n / 16 + 1) * 16 ≤ n + 16 := by
      have := Nat.div_mul_le_self n 16
      omega
    exact Nat.mod_eq_of_lt (by omega)
  refine ⟨?_, ?_, ?_, ?_⟩
  · rw [hv]; omega
  · rw [hv]; omega
  · rw [hv]; exact Dvd.intro_left _ rfl
  · intro m hm ⟨c, hc⟩
    rw [hv, hc]
    subst hc
    omega

/-- C10 witness: at `n = 5` the cipher length is 16, the smallest multiple
of 16 above 5. -/
theorem claim_C10_expectedAESCipherLength_witness :
    (5 + 16 < 2 ^ 64) ∧ 5 < expectedAESCipherLength 5 ∧ expectedAESCipherLength 5 ≤ 5 + 16 :=
  ⟨by decide,
   (claim_C10_expectedAESCipherLength 5 (by decide)).1,
   (claim_C10_expectedAESCipherLength 5 (by decide)).2.1⟩

theorem and_mask4 (x : Nat) (hx : x < 2 ^ 64) : x &&& (2 ^ 64 - 4) = x / 4 * 4 := by
  apply Nat.eq_of_testBit_eq
  intro i
  rw [Nat.testBit_land]
  have hm : (2 : Nat) ^ 64 - 4 = (2 ^ 62 - 1) <<< 2 := by
    rw [Nat.shiftLeft_eq]; norm_num
  have hr : x / 4 * 4 = (x >>> 2) <<< 2 := by
    rw [Nat.shiftLeft_eq, Nat.shiftRight_eq_div_pow]
  rw [hm, hr, Nat.testBit_shiftLeft, Nat.testBit_shiftLeft, Nat.testBit_shiftRight,
    Nat.testBit_two_pow_sub_one]
  by_cases h2 : 2 ≤ i
  · by_cases h64 : i < 64
    · have h22 : 2 + (i - 2) = i := by omega
      simp [h2, h22, show i - 2 < 62 by omega]
    · have hbf : x.testBit i = false := Nat.testBit_lt_two_pow (by
        calc x < 2 ^ 64 := hx
        _ ≤ 2 ^ i := Nat.pow_le_pow_right (by omega) (by omega))
      have hbf2 : x.testBit (2 + (i - 2)) = false := Nat.testBit_lt_two_pow (by
        calc x < 2 ^ 64 := hx
        _ ≤ 2 ^ (2 + (i - 2)) := Nat.pow_le_pow_right (by omega) (by omega))
      simp [hbf, hbf2, show ¬(i - 2 < 62) by omega]
  · simp [show ¬(2 ≤ i) by omega, show ¬(i ≥ 2) by omega]

theorem b64Val_b64Chr (v : Nat) (hv : v < 64) : b64Val (b64Chr v) = some v := by
  have h : ∀ w : Fin 64, b64Val (b64Chr w.val) = some w.val := by decide
  exact h ⟨v, hv⟩

theorem b64Chr_ne_61 (v : Nat) (hv : v < 64) : b64Chr v ≠ 61 := by
  have h : ∀ w : Fin 64, b64Chr w.val ≠ 61 := by decide
  exact h ⟨v, hv⟩

theorem b64Chr_ne_58 (v : Nat) (hv : v < 64) : b64Chr v ≠ 58 := by
  have h : ∀ w : Fin 64, b64Chr w.val ≠ 58 := by decide
  exact h ⟨v, hv⟩

theorem base64Encode_length (l : List Nat) :
    (base64Encode l).length = 4 * ((l.length + 2) / 3) := by
  induction l using base64Encode.induct with
  | case1 => rfl
  | case2 a => norm_num [base64Encode]
  | case3 a b => norm_num [base64Encode]
  | case4 a b c rest ih =>
      simp only [base64Encode, List.length_cons, ih]
      omega

/-- Round trip: decoding an encoded byte string returns the bytes. -/
theorem base64Decode_base64Encode (l : List Nat) (hl : ∀ b ∈ l, b < 256) :
    base64Decode (base64Encode l) = some l := by
  induction l using base64Encode.induct with
  | case1 => rfl
  | case2 a =>
      have ha : a < 256 := hl a (by simp)
      simp only [base64Encode, base64Decode]
      rw [b64Val_b64Chr (a / 4) (by omega), b64Val_b64Chr (a % 4 * 16) (by omega)]
      simp
      omega
  | case3 a b =>
      have ha : a < 256 := hl a (by simp)
      have hb : b < 256 := hl b (by simp)
      simp only [base64Encode, base64Decode]
      rw [b64Val_b64Chr (a / 4) (by omega), b64Val_b64Chr (a % 4 * 16 + b / 16) (by omega),
        b64Val_b64Chr (b % 16 * 4) (by omega)]
      simp [b64Chr_ne_61 (b % 16 * 4) (by omega)]
      omega
  | case4 a b c rest ih =>
      have ha : a < 256 := hl a (by simp)
      have hb : b < 256 := hl b (by simp)
      have hc : c < 256 := hl c (by simp)
      have hrest : ∀ x ∈ rest, x < 256 := fun x hx => hl x (by simp [hx])
      simp only [base64Encode, base64Decode]
      rw [b64Val_b64Chr (a / 4) (by omega), b64Val_b64Chr (a % 4 * 16 + b / 16) (by omega),
        b64Val_b64Chr (b % 16 * 4 + c / 64) (by omega), b64Val_b64Chr (c % 64) (by omega),
        ih hrest]
      simp [b64Chr_ne_61 (b % 16 * 4 + c / 64) (by omega), b64Chr_ne_61 (c % 64) (by omega),
        show a / 4 * 4 + (a % 4 * 16 + b / 16) / 16 = a by omega,
        show (a % 4 * 16 + b / 16) % 16 * 16 + (b % 16 * 4 + c / 64) / 4 = b by omega,
        show (b % 16 * 4 + c / 64) % 4 * 64 + c % 64 = c by omega]

theorem base64Encode_ne_58 (l : List Nat) (hl : ∀ b ∈ l, b < 256) :
    ∀ ch ∈ base64Encode l, ch ≠ 58 := by
  induction l using base64Encode.induct with
  | case1 => intro ch h; simp [base64Encode] at h
  | case2 a =>
      have ha : a < 256 := hl a (by simp)
      intro ch h
      simp only [base64Encode, List.mem_cons, List.not_mem_nil, or_false] at h
      rcases h with h | h | h | h
      · exact h ▸ b64Chr_ne_58 (a / 4) (by omega)
      · exact h ▸ b64Chr_ne_58 (a % 4 * 16) (by omega)
      · omega
      · omega
  | case3 a b =>
      have ha : a < 256 := hl a (by simp)
      have hb : b < 256 := hl b (by simp)
      intro ch h
      simp only [base64Encode, List.mem_cons, List.not_mem_nil, or_false] at h
      rcases h with h | h | h | h
      · exact h ▸ b64Chr_ne_58 (a / 4) (by omega)
      · exact h ▸ b64Chr_ne_58 (a % 4 * 16 + b / 16) (by omega)
      · exact h ▸ b64Chr_ne_58 (b % 16 * 4) (by omega)
      · omega
  | case4 a b c rest ih =>
      have ha : a < 256 := hl a (by simp)
      have hb : b < 256 := hl b (by simp)
      have hc : c < 256 := hl c (by simp)
      have hrest : ∀ x ∈ rest, x < 256 := fun x hx => hl x (by simp [hx])
      intro ch h
      simp only [base64Encode, List.mem_cons] at h
      rcases h with h | h | h | h | h
      · exact h ▸ b64Chr_ne_58 (a / 4) (by omega)
      · exact h ▸ b64Chr_ne_58 (a % 4 * 16 + b / 16) (by omega)
      · exact h ▸ b64Chr_ne_58 (b % 16 * 4 + c / 64) (by omega)
      · exact h ▸ b64Chr_ne_58 (c % 64) (by omega)
      · exact ih hrest ch h

theorem hexVal_hexDigitChr (v : Nat) (hv : v < 16) : hexVal (hexDigitChr v) = some v := by
  have h : ∀ w : Fin 16, hexVal (hexDigitChr w.val) = some w.val := by decide
  exact h ⟨v, hv⟩

theorem hexDigitChr_ne_58 (v : Nat) (hv : v < 16) : hexDigitChr v ≠ 58 := by
  have h : ∀ w : Fin 16, hexDigitChr w.val ≠ 58 := by decide
  exact h ⟨v, hv⟩

theorem stringToHex_length (l : List Nat) : (stringToHex l).length = 2 * l.length := by
  induction l with
  | nil => rfl
  | cons b r ih =>
      simp only [stringToHex, List.length_cons, ih]
      omega

theorem hexToString_stringToHex (l : List Nat) (hl : ∀ b ∈ l, b < 256) :
    hexToString (stringToHex l) = some l := by
  induction l with
  | nil => rfl
  | cons b r ih =>
      have hb : b < 256 := hl b (by simp)
      have hr : ∀ x ∈ r, x < 256 := fun x hx => hl x (by simp [hx])
      simp only [stringToHex, hexToString]
      rw [hexVal_hexDigitChr (b / 16) (by omega), hexVal_hexDigitChr (b % 16) (by omega),
        ih hr]
      simp
      omega

theorem stringToHex_ne_58 (l : List Nat) (hl : ∀ b ∈ l, b < 256) :
    ∀ ch ∈ stringToHex l, ch ≠ 58 := by
  induction l with
  | nil => intro ch h; simp [stringToHex] at h
  | cons b r ih =>
      have hb : b < 256 := hl b (by simp)
      have hr : ∀ x ∈ r, x < 256 := fun x hx => hl x (by simp [hx])
      intro ch h
      simp only [stringToHex, List.mem_cons] at h
      rcases h with h | h | h
      · exact h ▸ hexDigitChr_ne_58 (b / 16) (by omega)
      · exact h ▸ hexDigitChr_ne_58 (b % 16) (by omega)
      · exact ih hr ch h

theorem hexVal_lt (c v : Nat) (h : hexVal c = some v) : v < 16 := by
  unfold hexVal at h
  split at h
  · simp only [Option.some.injEq] at h; omega
  · split at h
    · simp only [Option.some.injEq] at h; omega
    · split at h
      · simp only [Option.some.injEq] at h; omega
      · simp at h

theorem hexToString_length (h : List Nat) (k : List Nat) (hh : hexToString h = some k) :
    h.length = 2 * k.length := by
  induction h using hexToString.induct generalizing k with
  | case1 =>
      simp only [hexToString, Option.some.injEq] at hh
      subst hh
      rfl
  | case2 x =>
      simp [hexToString] at hh
  | case3 hi lo r ih =>
      simp only [hexToString, Option.bind_eq_bind] at hh
      cases hv1 : hexVal hi with
      | none => rw [hv1] at hh; simp at hh
      | some v1 =>
          cases hv2 : hexVal lo with
          | none => rw [hv1, hv2] at hh; simp at hh
          | some v2 =>
              cases hrest : hexToString r with
              | none => rw [hv1, hv2, hrest] at hh; simp at hh
              | some rest =>
                  rw [hv1, hv2, hrest] at hh
                  simp only [Option.some_bind, Option.some.injEq] at hh
                  subst hh
                  simp only [List.length_cons, ih rest hrest]
                  omega

theorem hexToString_bytes_lt (h : List Nat) (k : List Nat) (hh : hexToString h = some k) :
    ∀ b ∈ k, b < 256 := by
  induction h using hexToString.induct generalizing k with
  | case1 =>
      simp only [hexToString, Option.some.injEq] at hh
      subst hh
      simp
  | case2 x =>
      simp [hexToString] at hh
  | case3 hi lo r ih =>
      simp only [hexToString, Option.bind_eq_bind] at hh
      cases hv1 : hexVal hi with
      | none => rw [hv1] at hh; simp at hh
      | some v1 =>
          cases hv2 : hexVal lo with
          | none => rw [hv1, hv2] at hh; simp at hh
          | some v2 =>
              cases hrest : hexToString r with
              | none => rw [hv1, hv2, hrest] at hh; simp at hh
              | some rest =>
                  rw [hv1, hv2, hrest] at hh
                  simp only [Option.some_bind, Option.some.injEq] at hh
                  subst hh
                  intro b hb
                  rcases List.mem_cons.mp hb with h1 | h1
                  · have hb1 : v1 < 16 := hexVal_lt hi v1 hv1
                    have hb2 : v2 < 16 := hexVal_lt lo v2 hv2
                    omega
                  · exact ih rest hrest b h1

theorem decDigits_bounds (n : Nat) : ∀ d ∈ decDigits n, 48 ≤ d ∧ d ≤ 57 := by
  induction n using decDigits.induct with
  | case1 n h =>
      intro d hd
      rw [decDigits, if_pos h] at hd
      simp at hd
      omega
  | case2 n h ih =>
      intro d hd
      rw [decDigits, if_neg h] at hd
      rcases List.mem_append.mp hd with h1 | h1
      · exact ih d h1
      · simp at h1
        have := Nat.mod_lt n (show 0 < 10 by omega)
        omega

theorem decDigits_length (n : Nat) : (decDigits n).length = numDigits n := by
  induction n using decDigits.induct with
  | case1 n h =>
      rw [decDigits, if_pos h, numDigits, if_pos h]
      rfl
  | case2 n h ih =>
      rw [decDigits, if_neg h, numDigits, if_neg h]
      simp [ih]

theorem decDigits_ne_nil (n : Nat) : decDigits n ≠ [] := by
  rw [decDigits]
  split
  · simp
  · simp

theorem decParseGo_append (acc : Nat) (xs ys : List Nat) :
    decParseGo acc (xs ++ ys) = (decParseGo acc xs).bind (fun m => decParseGo m ys) := by
  induction xs generalizing acc with
  | nil => rfl
  | cons d ds ih =>
      simp only [List.cons_append, decParseGo]
      split
      · exact ih _
      · rfl

theorem decParseGo_decDigits (n : Nat) : ∀ acc : Nat,
    decParseGo acc (decDigits n) = some (acc * 10 ^ numDigits n + n) := by
  induction n using decDigits.induct with
  | case1 n h =>
      intro acc
      rw [decDigits, if_pos h, numDigits, if_pos h]
      simp only [decParseGo, if_pos (by omega : 48 ≤ 48 + n ∧ 48 + n ≤ 57)]
      congr 1
      omega
  | case2 n h ih =>
      intro acc
      rw [decDigits, if_neg h, numDigits, if_neg h]
      rw [decParseGo_append, ih acc]
      have hd : 48 ≤ 48 + n % 10 ∧ 48 + n % 10 ≤ 57 := by
        have := Nat.mod_lt n (show 0 < 10 by omega)
        omega
      simp only [Option.some_bind, decParseGo, if_pos hd]
      congr 1
      have hmod := Nat.div_add_mod n 10
      rw [pow_succ]
      ring_nf
      omega

theorem decParse_decDigits (n : Nat) : decParse (decDigits n) = some n := by
  unfold decParse
  have hne := decDigits_ne_nil n
  split
  · exact absurd (by assumption) hne
  · rw [decParseGo_decDigits n 0]
    simp

theorem xor_lt_256 {x y : Nat} (hx : x < 256) (hy : y < 256) : x ^^^ y < 256 := by
  have h8 : (256 : Nat) = 2 ^ 8 := by norm_num
  rw [h8] at hx hy ⊢
  exact Nat.xor_lt_two_pow hx hy

theorem xor_interchange (a b c d : Nat) :
    (a ^^^ b) ^^^ (c ^^^ d) = (a ^^^ c) ^^^ (b ^^^ d) := by
  calc (a ^^^ b) ^^^ (c ^^^ d) = a ^^^ (b ^^^ (c ^^^ d)) := by rw [Nat.xor_assoc]
  _ = a ^^^ ((b ^^^ c) ^^^ d) := by rw [Nat.xor_assoc]
  _ = a ^^^ ((c ^^^ b) ^^^ d) := by rw [Nat.xor_comm b c]
  _ = a ^^^ (c ^^^ (b ^^^ d)) := by rw [Nat.xor_assoc]
  _ = (a ^^^ c) ^^^ (b ^^^ d) := by rw [Nat.xor_assoc]

theorem two_mul_xor (x y : Nat) : 2 * (x ^^^ y) = 2 * x ^^^ 2 * y := by
  have h : ∀ z : Nat, 2 * z = z <<< 1 := fun z => by
    rw [Nat.shiftLeft_eq, pow_one, Nat.mul_comm]
  rw [h, h, h]
  apply Nat.eq_of_testBit_eq
  intro i
  simp only [Nat.testBit_shiftLeft, Nat.testBit_xor, Bool.and_xor_distrib_left]

theorem mod256_xor (a b : Nat) : (a ^^^ b) % 256 = a % 256 ^^^ b % 256 := by
  have h8 : (256 : Nat) = 2 ^ 8 := by norm_num
  rw [h8]
  apply Nat.eq_of_testBit_eq
  intro i
  simp only [Nat.testBit_mod_two_pow, Nat.testBit_xor, Bool.and_xor_distrib_left]

theorem shiftRight_xor (x y k : Nat) : (x ^^^ y) >>> k = x >>> k ^^^ y >>> k := by
  apply Nat.eq_of_testBit_eq
  intro i
  rw [Nat.testBit_shiftRight, Nat.testBit_xor, Nat.testBit_xor,
    Nat.testBit_shiftRight, Nat.testBit_shiftRight]

theorem div128_xor (x y : Nat) : (x ^^^ y) / 128 = x / 128 ^^^ y / 128 := by
  have h : ∀ z : Nat, z / 128 = z >>> 7 := fun z => by
    rw [Nat.shiftRight_eq_div_pow]
  rw [h, h, h, shiftRight_xor]

set_option maxRecDepth 100000 in
theorem xtime_alt (x : Nat) (hx : x < 256) : xtime x = 2 * x % 256 ^^^ 27 * (x / 128) := by
  have h : ∀ w : Fin 256, xtime w.val = 2 * w.val % 256 ^^^ 27 * (w.val / 128) := by decide
  exact h ⟨x, hx⟩

set_option maxRecDepth 100000 in
theorem xtime_lt (x : Nat) (hx : x < 256) : xtime x < 256 := by
  have h : ∀ w : Fin 256, xtime w.val < 256 := by decide
  exact h ⟨x, hx⟩

theorem xtime_xor (x y : Nat) (hx : x < 256) (hy : y < 256) :
    xtime (x ^^^ y) = xtime x ^^^ xtime y := by
  have hxy : x ^^^ y < 256 := xor_lt_256 hx hy
  rw [xtime_alt _ hxy, xtime_alt _ hx, xtime_alt _ hy, two_mul_xor, mod256_xor, div128_xor]
  have hbx : x / 128 = 0 ∨ x / 128 = 1 := by omega
  have hby : y / 128 = 0 ∨ y / 128 = 1 := by omega
  rcases hbx with h1 | h1 <;> rcases hby with h2 | h2 <;>
    rw [h1, h2] <;>
    simp only [Nat.mul_zero, Nat.mul_one, Nat.xor_zero, Nat.zero_xor, Nat.xor_self]
  · rw [Nat.xor_assoc]
  · rw [Nat.xor_assoc, Nat.xor_comm (2 * y % 256) 27, ← Nat.xor_assoc]
  · rw [xor_interchange, Nat.xor_self, Nat.xor_zero]

theorem mul2_lt (x : Nat) (hx : x < 256) : mul2 x < 256 := xtime_lt x hx

theorem mul3_lt (x : Nat) (hx : x < 256) : mul3 x < 256 :=
  xor_lt_256 (xtime_lt x hx) hx

theorem mul9_lt (x : Nat) (hx : x < 256) : mul9 x < 256 :=
  xor_lt_256 (xtime_lt _ (xtime_lt _ (xtime_lt x hx))) hx

theorem mul11_lt (x : Nat) (hx : x < 256) : mul11 x < 256 :=
  xor_lt_256 (xor_lt_256 (xtime_lt _ (xtime_lt _ (xtime_lt x hx))) (xtime_lt x hx)) hx

theorem mul13_lt (x : Nat) (hx : x < 256) : mul13 x < 256 :=
  xor_lt_256 (xor_lt_256 (xtime_lt _ (xtime_lt _ (xtime_lt x hx)))
    (xtime_lt _ (xtime_lt x hx))) hx

theorem mul14_lt (x : Nat) (hx : x < 256) : mul14 x < 256 :=
  xor_lt_256 (xor_lt_256 (xtime_lt _ (xtime_lt _ (xtime_lt x hx)))
    (xtime_lt _ (xtime_lt x hx))) (xtime_lt x hx)

theorem mul9_xor (x y : Nat) (hx : x < 256) (hy : y < 256) :
    mul9 (x ^^^ y) = mul9 x ^^^ mul9 y := by
  have hx1 := xtime_lt x hx
  have hx2 := xtime_lt _ hx1
  have hy1 := xtime_lt y hy
  have hy2 := xtime_lt _ hy1
  unfold mul9
  rw [xtime_xor x y hx hy, xtime_xor _ _ hx1 hy1, xtime_xor _ _ hx2 hy2, xor_interchange]

theorem mul11_xor (x y : Nat) (hx : x < 256) (hy : y < 256) :
    mul11 (x ^^^ y) = mul11 x ^^^ mul11 y := by
  have hx1 := xtime_lt x hx
  have hx2 := xtime_lt _ hx1
  have hy1 := xtime_lt y hy
  have hy2 := xtime_lt _ hy1
  unfold mul11
  rw [xtime_xor x y hx hy, xtime_xor _ _ hx1 hy1, xtime_xor _ _ hx2 hy2,
    xor_interchange (xtime (xtime (xtime x))) (xtime (xtime (xtime y))) (xtime x) (xtime y),
    xor_interchange (xtime (xtime (xtime x)) ^^^ xtime x)
      (xtime (xtime (xtime y)) ^^^ xtime y) x y]

theorem mul13_xor (x y : Nat) (hx : x < 256) (hy : y < 256) :
    mul13 (x ^^^ y) = mul13 x ^^^ mul13 y := by
  have hx1 := xtime_lt x hx
  have hx2 := xtime_lt _ hx1
  have hy1 := xtime_lt y hy
  have hy2 := xtime_lt _ hy1
  unfold mul13
  rw [xtime_xor x y hx hy, xtime_xor _ _ hx1 hy1, xtime_xor _ _ hx2 hy2,
    xor_interchange (xtime (xtime (xtime x))) (xtime (xtime (xtime y)))
      (xtime (xtime x)) (xtime (xtime y)),
    xor_interchange (xtime (xtime (xtime x)) ^^^ xtime (xtime x))
      (xtime (xtime (xtime y)) ^^^ xtime (xtime y)) x y]

theorem mul14_xor (x y : Nat) (hx : x < 256) (hy : y < 256) :
    mul14 (x ^^^ y) = mul14 x ^^^ mul14 y := by
  have hx1 := xtime_lt x hx
  have hx2 := xtime_lt _ hx1
  have hy1 := xtime_lt y hy
  have hy2 := xtime_lt _ hy1
  unfold mul14
  rw [xtime_xor x y hx hy, xtime_xor _ _ hx1 hy1, xtime_xor _ _ hx2 hy2,
    xor_interchange (xtime (xtime (xtime x))) (xtime (xtime (xtime y)))
      (xtime (xtime x)) (xtime (xtime y)),
    xor_interchange (xtime (xtime (xtime x)) ^^^ xtime (xtime x))
      (xtime (xtime (xtime y)) ^^^ xtime (xtime y)) (xtime x) (xtime y)]

theorem mc0_lt (a b c d : Nat) (ha : a < 256) (hb : b < 256) (hc : c < 256) (hd : d < 256) :
    mc0 a b c d < 256 :=
  xor_lt_256 (xor_lt_256 (xor_lt_256 (mul2_lt a ha) (mul3_lt b hb)) hc) hd

theorem mc1_lt (a b c d : Nat) (ha : a < 256) (hb : b < 256) (hc : c < 256) (hd : d < 256) :
    mc1 a b c d < 256 :=
  xor_lt_256 (xor_lt_256 (xor_lt_256 ha (mul2_lt b hb)) (mul3_lt c hc)) hd

theorem mc2_lt (a b c d : Nat) (ha : a < 256) (hb : b < 256) (hc : c < 256) (hd : d < 256) :
    mc2 a b c d < 256 :=
  xor_lt_256 (xor_lt_256 (xor_lt_256 ha hb) (mul2_lt c hc)) (mul3_lt d hd)

theorem mc3_lt (a b c d : Nat) (ha : a < 256) (hb : b < 256) (hc : c < 256) (hd : d < 256) :
    mc3 a b c d < 256 :=
  xor_lt_256 (xor_lt_256 (xor_lt_256 (mul3_lt a ha) hb) hc) (mul2_lt d hd)

theorem mul2_zero : mul2 0 = 0 := by decide

theorem mul3_zero : mul3 0 = 0 := by decide

theorem mc0_split (a b c d : Nat) :
    mc0 a b c d = mc0 a 0 0 0 ^^^ (mc0 0 b 0 0 ^^^ (mc0 0 0 c 0 ^^^ mc0 0 0 0 d)) := by
  simp only [mc0, mul2_zero, mul3_zero, Nat.xor_zero, Nat.zero_xor, Nat.xor_assoc]

theorem mc1_split (a b c d : Nat) :
    mc1 a b c d = mc1 a 0 0 0 ^^^ (mc1 0 b 0 0 ^^^ (mc1 0 0 c 0 ^^^ mc1 0 0 0 d)) := by
  simp only [mc1, mul2_zero, mul3_zero, Nat.xor_zero, Nat.zero_xor, Nat.xor_assoc]

theorem mc2_split (a b c d : Nat) :
    mc2 a b c d = mc2 a 0 0 0 ^^^ (mc2 0 b 0 0 ^^^ (mc2 0 0 c 0 ^^^ mc2 0 0 0 d)) := by
  simp only [mc2, mul2_zero, mul3_zero, Nat.xor_zero, Nat.zero_xor, Nat.xor_assoc]

theorem mc3_split (a b c d : Nat) :
    mc3 a b c d = mc3 a 0 0 0 ^^^ (mc3 0 b 0 0 ^^^ (mc3 0 0 c 0 ^^^ mc3 0 0 0 d)) := by
  simp only [mc3, mul2_zero, mul3_zero, Nat.xor_zero, Nat.zero_xor, Nat.xor_assoc]

theorem imc0_xor (x0 x1 x2 x3 y0 y1 y2 y3 : Nat)
    (h0 : x0 < 256) (h1 : x1 < 256) (h2 : x2 < 256) (h3 : x3 < 256)
    (g0 : y0 < 256) (g1 : y1 < 256) (g2 : y2 < 256) (g3 : y3 < 256) :
    imc0 (x0 ^^^ y0) (x1 ^^^ y1) (x2 ^^^ y2) (x3 ^^^ y3) =
      imc0 x0 x1 x2 x3 ^^^ imc0 y0 y1 y2 y3 := by
  unfold imc0
  rw [mul14_xor _ _ h0 g0, mul11_xor _ _ h1 g1, mul13_xor _ _ h2 g2, mul9_xor _ _ h3 g3,
    xor_interchange (mul14 x0) (mul14 y0) (mul11 x1) (mul11 y1),
    xor_interchange (mul14 x0 ^^^ mul11 x1) (mul14 y0 ^^^ mul11 y1) (mul13 x2) (mul13 y2),
    xor_interchange (mul14 x0 ^^^ mul11 x1 ^^^ mul13 x2)
      (mul14 y0 ^^^ mul11 y1 ^^^ mul13 y2) (mul9 x3) (mul9 y3)]

theorem imc1_xor (x0 x1 x2 x3 y0 y1 y2 y3 : Nat)
    (h0 : x0 < 256) (h1 : x1 < 256) (h2 : x2 < 256) (h3 : x3 < 256)
    (g0 : y0 < 256) (g1 : y1 < 256) (g2 : y2 < 256) (g3 : y3 < 256) :
    imc1 (x0 ^^^ y0) (x1 ^^^ y1) (x2 ^^^ y2) (x3 ^^^ y3) =
      imc1 x0 x1 x2 x3 ^^^ imc1 y0 y1 y2 y3 := by
  unfold imc1
  rw [mul9_xor _ _ h0 g0, mul14_xor _ _ h1 g1, mul11_xor _ _ h2 g2, mul13_xor _ _ h3 g3,
    xor_interchange (mul9 x0) (mul9 y0) (mul14 x1) (mul14 y1),
    xor_interchange (mul9 x0 ^^^ mul14 x1) (mul9 y0 ^^^ mul14 y1) (mul11 x2) (mul11 y2),
    xor_interchange (mul9 x0 ^^^ mul14 x1 ^^^ mul11 x2)
      (mul9 y0 ^^^ mul14 y1 ^^^ mul11 y2) (mul13 x3) (mul13 y3)]

theorem imc2_xor (x0 x1 x2 x3 y0 y1 y2 y3 : Nat)
    (h0 : x0 < 256) (h1 : x1 < 256) (h2 : x2 < 256) (h3 : x3 < 256)
    (g0 : y0 < 256) (g1 : y1 < 256) (g2 : y2 < 256) (g3 : y3 < 256) :
    imc2 (x0 ^^^ y0) (x1 ^^^ y1) (x2 ^^^ y2) (x3 ^^^ y3) =
      imc2 x0 x1 x2 x3 ^^^ imc2 y0 y1 y2 y3 := by
  unfold imc2
  rw [mul13_xor _ _ h0 g0, mul9_xor _ _ h1 g1, mul14_xor _ _ h2 g2, mul11_xor _ _ h3 g3,
    xor_interchange (mul13 x0) (mul13 y0) (mul9 x1) (mul9 y1),
    xor_interchange (mul13 x0 ^^^ mul9 x1) (mul13 y0 ^^^ mul9 y1) (mul14 x2) (mul14 y2),
    xor_interchange (mul13 x0 ^^^ mul9 x1 ^^^ mul14 x2)
      (mul13 y0 ^^^ mul9 y1 ^^^ mul14 y2) (mul11 x3) (mul11 y3)]

theorem imc3_xor (x0 x1 x2 x3 y0 y1 y2 y3 : Nat)
    (h0 : x0 < 256) (h1 : x1 < 256) (h2 : x2 < 256) (h3 : x3 < 256)
    (g0 : y0 < 256) (g1 : y1 < 256) (g2 : y2 < 256) (g3 : y3 < 256) :
    imc3 (x0 ^^^ y0) (x1 ^^^ y1) (x2 ^^^ y2) (x3 ^^^ y3) =
      imc3 x0 x1 x2 x3 ^^^ imc3 y0 y1 y2 y3 := by
  unfold imc3
  rw [mul11_xor _ _ h0 g0, mul13_xor _ _ h1 g1, mul9_xor _ _ h2 g2, mul14_xor _ _ h3 g3,
    xor_interchange (mul11 x0) (mul11 y0) (mul13 x1) (mul13 y1),
    xor_interchange (mul11 x0 ^^^ mul13 x1) (mul11 y0 ^^^ mul13 y1) (mul9 x2) (mul9 y2),
    xor_interchange (mul11 x0 ^^^ mul13 x1 ^^^ mul9 x2)
      (mul11 y0 ^^^ mul13 y1 ^^^ mul9 y2) (mul14 x3) (mul14 y3)]

set_option maxRecDepth 100000 in
theorem imcBasisA (a : Nat) (ha : a < 256) :
    imc0 (mc0 a 0 0 0) (mc1 a 0 0 0) (mc2 a 0 0 0) (mc3 a 0 0 0) = a ∧
    imc1 (mc0 a 0 0 0) (mc1 a 0 0 0) (mc2 a 0 0 0) (mc3 a 0 0 0) = 0 ∧
    imc2 (mc0 a 0 0 0) (mc1 a 0 0 0) (mc2 a 0 0 0) (mc3 a 0 0 0) = 0 ∧
    imc3 (mc0 a 0 0 0) (mc1 a 0 0 0) (mc2 a 0 0 0) (mc3 a 0 0 0) = 0 := by
  have h : ∀ w : Fin 256,
      imc0 (mc0 w.val 0 0 0) (mc1 w.val 0 0 0) (mc2 w.val 0 0 0) (mc3 w.val 0 0 0) = w.val ∧
      imc1 (mc0 w.val 0 0 0) (mc1 w.val 0 0 0) (mc2 w.val 0 0 0) (mc3 w.val 0 0 0) = 0 ∧
      imc2 (mc0 w.val 0 0 0) (mc1 w.val 0 0 0) (mc2 w.val 0 0 0) (mc3 w.val 0 0 0) = 0 ∧
      imc3 (mc0 w.val 0 0 0) (mc1 w.val 0 0 0) (mc2 w.val 0 0 0) (mc3 w.val 0 0 0) = 0 := by
    decide
  exact h ⟨a, ha⟩

set_option maxRecDepth 100000 in
theorem imcBasisB (b : Nat) (hb : b < 256) :
    imc0 (mc0 0 b 0 0) (mc1 0 b 0 0) (mc2 0 b 0 0) (mc3 0 b 0 0) = 0 ∧
    imc1 (mc0 0 b 0 0) (mc1 0 b 0 0) (mc2 0 b 0 0) (mc3 0 b 0 0) = b ∧
    imc2 (mc0 0 b 0 0) (mc1 0 b 0 0) (mc2 0 b 0 0) (mc3 0 b 0 0) = 0 ∧
    imc3 (mc0 0 b 0 0) (mc1 0 b 0 0) (mc2 0 b 0 0) (mc3 0 b 0 0) = 0 := by
  have h : ∀ w : Fin 256,
      imc0 (mc0 0 w.val 0 0) (mc1 0 w.val 0 0) (mc2 0 w.val 0 0) (mc3 0 w.val 0 0) = 0 ∧
      imc1 (mc0 0 w.val 0 0) (mc1 0 w.val 0 0) (mc2 0 w.val 0 0) (mc3 0 w.val 0 0) = w.val ∧
      imc2 (mc0 0 w.val 0 0) (mc1 0 w.val 0 0) (mc2 0 w.val 0 0) (mc3 0 w.val 0 0) = 0 ∧
      imc3 (mc0 0 w.val 0 0) (mc1 0 w.val 0 0) (mc2 0 w.val 0 0) (mc3 0 w.val 0 0) = 0 := by
    decide
  exact h ⟨b, hb⟩

set_option maxRecDepth 100000 in
theorem imcBasisC (c : Nat) (hc : c < 256) :
    imc0 (mc0 0 0 c 0) (mc1 0 0 c 0) (mc2 0 0 c 0) (mc3 0 0 c 0) = 0 ∧
    imc1 (mc0 0 0 c 0) (mc1 0 0 c 0) (mc2 0 0 c 0) (mc3 0 0 c 0) = 0 ∧
    imc2 (mc0 0 0 c 0) (mc1 0 0 c 0) (mc2 0 0 c 0) (mc3 0 0 c 0) = c ∧
    imc3 (mc0 0 0 c 0) (mc1 0 0 c 0) (mc2 0 0 c 0) (mc3 0 0 c 0) = 0 := by
  have h : ∀ w : Fin 256,
      imc0 (mc0 0 0 w.val 0) (mc1 0 0 w.val 0) (mc2 0 0 w.val 0) (mc3 0 0 w.val 0) = 0 ∧
      imc1 (mc0 0 0 w.val 0) (mc1 0 0 w.val 0) (mc2 0 0 w.val 0) (mc3 0 0 w.val 0) = 0 ∧
      imc2 (mc0 0 0 w.val 0) (mc1 0 0 w.val 0) (mc2 0 0 w.val 0) (mc3 0 0 w.val 0) = w.val ∧
      imc3 (mc0 0 0 w.val 0) (mc1 0 0 w.val 0) (mc2 0 0 w.val 0) (mc3 0 0 w.val 0) = 0 := by
    decide
  exact h ⟨c, hc⟩

set_option maxRecDepth 100000 in
theorem imcBasisD (d : Nat) (hd : d < 256) :
    imc0 (mc0 0 0 0 d) (mc1 0 0 0 d) (mc2 0 0 0 d) (mc3 0 0 0 d) = 0 ∧
    imc1 (mc0 0 0 0 d) (mc1 0 0 0 d) (mc2 0 0 0 d) (mc3 0 0 0 d) = 0 ∧
    imc2 (mc0 0 0 0 d) (mc1 0 0 0 d) (mc2 0 0 0 d) (mc3 0 0 0 d) = 0 ∧
    imc3 (mc0 0 0 0 d) (mc1 0 0 0 d) (mc2 0 0 0 d) (mc3 0 0 0 d) = d := by
  have h : ∀ w : Fin 256,
      imc0 (mc0 0 0 0 w.val) (mc1 0 0 0 w.val) (mc2 0 0 0 w.val) (mc3 0 0 0 w.val) = 0 ∧
      imc1 (mc0 0 0 0 w.val) (mc1 0 0 0 w.val) (mc2 0 0 0 w.val) (mc3 0 0 0 w.val) = 0 ∧
      imc2 (mc0 0 0 0 w.val) (mc1 0 0 0 w.val) (mc2 0 0 0 w.val) (mc3 0 0 0 w.val) = 0 ∧
      imc3 (mc0 0 0 0 w.val) (mc1 0 0 0 w.val) (mc2 0 0 0 w.val) (mc3 0 0 0 w.val) = w.val := by
    decide
  exact h ⟨d, hd⟩

/-- InvMixColumns inverts MixColumns on one column of bytes. -/
theorem invMixCol_mixCol (a b c d : Nat)
    (ha : a < 256) (hb : b < 256) (hc : c < 256) (hd : d < 256) :
    imc0 (mc0 a b c d) (mc1 a b c d) (mc2 a b c d) (mc3 a b c d) = a ∧
    imc1 (mc0 a b c d) (mc1 a b c d) (mc2 a b c d) (mc3 a b c d) = b ∧
    imc2 (mc0 a b c d) (mc1 a b c d) (mc2 a b c d) (mc3 a b c d) = c ∧
    imc3 (mc0 a b c d) (mc1 a b c d) (mc2 a b c d) (mc3 a b c d) = d := by
  have h0 : (0 : Nat) < 256 := by omega
  have hA0 := mc0_lt a 0 0 0 ha h0 h0 h0
  have hA1 := mc1_lt a 0 0 0 ha h0 h0 h0
  have hA2 := mc2_lt a 0 0 0 ha h0 h0 h0
  have hA3 := mc3_lt a 0 0 0 ha h0 h0 h0
  have hB0 := mc0_lt 0 b 0 0 h0 hb h0 h0
  have hB1 := mc1_lt 0 b 0 0 h0 hb h0 h0
  have hB2 := mc2_lt 0 b 0 0 h0 hb h0 h0
  have hB3 := mc3_lt 0 b 0 0 h0 hb h0 h0
  have hC0 := mc0_lt 0 0 c 0 h0 h0 hc h0
  have hC1 := mc1_lt 0 0 c 0 h0 h0 hc h0
  have hC2 := mc2_lt 0 0 c 0 h0 h0 hc h0
  have hC3 := mc3_lt 0 0 c 0 h0 h0 hc h0
  have hD0 := mc0_lt 0 0 0 d h0 h0 h0 hd
  have hD1 := mc1_lt 0 0 0 d h0 h0 h0 hd
  have hD2 := mc2_lt 0 0 0 d h0 h0 h0 hd
  have hD3 := mc3_lt 0 0 0 d h0 h0 h0 hd
  have hS0 := xor_lt_256 hC0 hD0
  have hS1 := xor_lt_256 hC1 hD1
  have hS2 := xor_lt_256 hC2 hD2
  have hS3 := xor_lt_256 hC3 hD3
  have hR0 := xor_lt_256 hB0 hS0
  have hR1 := xor_lt_256 hB1 hS1
  have hR2 := xor_lt_256 hB2 hS2
  have hR3 := xor_lt_256 hB3 hS3
  have hBA := imcBasisA a ha
  have hBB := imcBasisB b hb
  have hBC := imcBasisC c hc
  have hBD := imcBasisD d hd
  refine ⟨?_, ?_, ?_, ?_⟩
  · rw [mc0_split a b c d, mc1_split a b c d, mc2_split a b c d, mc3_split a b c d,
      imc0_xor _ _ _ _ _ _ _ _ hA0 hA1 hA2 hA3 hR0 hR1 hR2 hR3,
      imc0_xor _ _ _ _ _ _ _ _ hB0 hB1 hB2 hB3 hS0 hS1 hS2 hS3,
      imc0_xor _ _ _ _ _ _ _ _ hC0 hC1 hC2 hC3 hD0 hD1 hD2 hD3,
      hBA.1, hBB.1, hBC.1, hBD.1]
    simp
  · rw [mc0_split a b c d, mc1_split a b c d, mc2_split a b c d, mc3_split a b c d,
      imc1_xor _ _ _ _ _ _ _ _ hA0 hA1 hA2 hA3 hR0 hR1 hR2 hR3,
      imc1_xor _ _ _ _ _ _ _ _ hB0 hB1 hB2 hB3 hS0 hS1 hS2 hS3,
      imc1_xor _ _ _ _ _ _ _ _ hC0 hC1 hC2 hC3 hD0 hD1 hD2 hD3,
      hBA.2.1, hBB.2.1, hBC.2.1, hBD.2.1]
    simp
  · rw [mc0_split a b c d, mc1_split a b c d, mc2_split a b c d, mc3_split a b c d,
      imc2_xor _ _ _ _ _ _ _ _ hA0 hA1 hA2 hA3 hR0 hR1 hR2 hR3,
      imc2_xor _ _ _ _ _ _ _ _ hB0 hB1 hB2 hB3 hS0 hS1 hS2 hS3,
      imc2_xor _ _ _ _ _ _ _ _ hC0 hC1 hC2 hC3 hD0 hD1 hD2 hD3,
      hBA.2.2.1, hBB.2.2.1, hBC.2.2.1, hBD.2.2.1]
    simp
  · rw [mc0_split a b c d, mc1_split a b c d, mc2_split a b c d, mc3_split a b c d,
      imc3_xor _ _ _ _ _ _ _ _ hA0 hA1 hA2 hA3 hR0 hR1 hR2 hR3,
      imc3_xor _ _ _ _ _ _ _ _ hB0 hB1 hB2 hB3 hS0 hS1 hS2 hS3,
      imc3_xor _ _ _ _ _ _ _ _ hC0 hC1 hC2 hC3 hD0 hD1 hD2 hD3,
      hBA.2.2.2, hBB.2.2.2, hBC.2.2.2, hBD.2.2.2]
    simp

theorem range_check (p : Nat → Prop) [DecidablePred p] (n : Nat)
    (h : (List.range n).all (fun b => decide (p b)) = true) : ∀ b, b < n → p b := by
  intro b hb
  simpa using List.all_eq_true.mp h b (List.mem_range.mpr hb)

set_option maxRecDepth 100000 in
theorem sboxInvChunk0 : ∀ w, w < 32 → invSbox (sbox (32 * 0 + w)) = 32 * 0 + w :=
  range_check (fun w => invSbox (sbox (32 * 0 + w)) = 32 * 0 + w) 32 (by rfl)

set_option maxRecDepth 100000 in
theorem sboxInvChunk1 : ∀ w, w < 32 → invSbox (sbox (32 * 1 + w)) = 32 * 1 + w :=
  range_check (fun w => invSbox (sbox (32 * 1 + w)) = 32 * 1 + w) 32 (by rfl)

set_option maxRecDepth 100000 in
theorem sboxInvChunk2 : ∀ w, w < 32 → invSbox (sbox (32 * 2 + w)) = 32 * 2 + w :=
  range_check (fun w => invSbox (sbox (32 * 2 + w)) = 32 * 2 + w) 32 (by rfl)

set_option maxRecDepth 100000 in
theorem sboxInvChunk3 : ∀ w, w < 32 → invSbox (sbox (32 * 3 + w)) = 32 * 3 + w :=
  range_check (fun w => invSbox (sbox (32 * 3 + w)) = 32 * 3 + w) 32 (by rfl)

set_option maxRecDepth 100000 in
theorem sboxInvChunk4 : ∀ w, w < 32 → invSbox (sbox (32 * 4 + w)) = 32 * 4 + w :=
  range_check (fun w => invSbox (sbox (32 * 4 + w)) = 32 * 4 + w) 32 (by rfl)

set_option maxRecDepth 100000 in
theorem sboxInvChunk5 : ∀ w, w < 32 → invSbox (sbox (32 * 5 + w)) = 32 * 5 + w :=
  range_check (fun w => invSbox (sbox (32 * 5 + w)) = 32 * 5 + w) 32 (by rfl)

set_option maxRecDepth 100000 in
theorem sboxInvChunk6 : ∀ w, w < 32 → invSbox (sbox (32 * 6 + w)) = 32 * 6 + w :=
  range_check (fun w => invSbox (sbox (32 * 6 + w)) = 32 * 6 + w) 32 (by rfl)

set_option maxRecDepth 100000 in
theorem sboxInvChunk7 : ∀ w, w < 32 → invSbox (sbox (32 * 7 + w)) = 32 * 7 + w :=
  range_check (fun w => invSbox (sbox (32 * 7 + w)) = 32 * 7 + w) 32 (by rfl)

theorem invSbox_sbox (b : Nat) (hb : b < 256) : invSbox (sbox b) = b := by
  obtain ⟨q, r, hr, hq, rfl⟩ : ∃ q r, r < 32 ∧ q < 8 ∧ 32 * q + r = b :=
    ⟨b / 32, b % 32, Nat.mod_lt _ (by omega), by omega, Nat.div_add_mod b 32⟩
  have h8 : q = 0 ∨ q = 1 ∨ q = 2 ∨ q = 3 ∨ q = 4 ∨ q = 5 ∨ q = 6 ∨ q = 7 := by omega
  rcases h8 with rfl | rfl | rfl | rfl | rfl | rfl | rfl | rfl
  exacts [sboxInvChunk0 r hr, sboxInvChunk1 r hr, sboxInvChunk2 r hr, sboxInvChunk3 r hr,
    sboxInvChunk4 r hr, sboxInvChunk5 r hr, sboxInvChunk6 r hr, sboxInvChunk7 r hr]

set_option maxRecDepth 100000 in
theorem sboxTab_length : sboxTab.length = 256 := by decide

set_option maxRecDepth 100000 in
theorem sboxLtChunk0 : ∀ w, w < 32 → sbox (32 * 0 + w) < 256 :=
  range_check (fun w => sbox (32 * 0 + w) < 256) 32 (by rfl)

set_option maxRecDepth 100000 in
theorem sboxLtChunk1 : ∀ w, w < 32 → sbox (32 * 1 + w) < 256 :=
  range_check (fun w => sbox (32 * 1 + w) < 256) 32 (by rfl)

set_option maxRecDepth 100000 in
theorem sboxLtChunk2 : ∀ w, w < 32 → sbox (32 * 2 + w) < 256 :=
  range_check (fun w => sbox (32 * 2 + w) < 256) 32 (by rfl)

set_option maxRecDepth 100000 in
theorem sboxLtChunk3 : ∀ w, w < 32 → sbox (32 * 3 + w) < 256 :=
  range_check (fun w => sbox (32 * 3 + w) < 256) 32 (by rfl)

set_option maxRecDepth 100000 in
theorem sboxLtChunk4 : ∀ w, w < 32 → sbox (32 * 4 + w) < 256 :=
  range_check (fun w => sbox (32 * 4 + w) < 256) 32 (by rfl)

set_option maxRecDepth 100000 in
theorem sboxLtChunk5 : ∀ w, w < 32 → sbox (32 * 5 + w) < 256 :=
  range_check (fun w => sbox (32 * 5 + w) < 256) 32 (by rfl)

set_option maxRecDepth 100000 in
theorem sboxLtChunk6 : ∀ w, w < 32 → sbox (32 * 6 + w) < 256 :=
  range_check (fun w => sbox (32 * 6 + w) < 256) 32 (by rfl)

set_option maxRecDepth 100000 in
theorem sboxLtChunk7 : ∀ w, w < 32 → sbox (32 * 7 + w) < 256 :=
  range_check (fun w => sbox (32 * 7 + w) < 256) 32 (by rfl)

theorem sbox_lt (b : Nat) : sbox b < 256 := by
  by_cases hb : b < 256
  · obtain ⟨q, r, hr, hq, rfl⟩ : ∃ q r, r < 32 ∧ q < 8 ∧ 32 * q + r = b :=
      ⟨b / 32, b % 32, Nat.mod_lt _ (by omega), by omega, Nat.div_add_mod b 32⟩
    have h8 : q = 0 ∨ q = 1 ∨ q = 2 ∨ q = 3 ∨ q = 4 ∨ q = 5 ∨ q = 6 ∨ q = 7 := by omega
    rcases h8 with rfl | rfl | rfl | rfl | rfl | rfl | rfl | rfl
    exacts [sboxLtChunk0 r hr, sboxLtChunk1 r hr, sboxLtChunk2 r hr, sboxLtChunk3 r hr,
      sboxLtChunk4 r hr, sboxLtChunk5 r hr, sboxLtChunk6 r hr, sboxLtChunk7 r hr]
  · unfold sbox
    rw [List.getD_eq_default _ _ (by rw [sboxTab_length]; omega)]
    omega

theorem xtimes_lt (n x : Nat) (hx : x < 256) : xtimes n x < 256 := by
  induction n generalizing x with
  | zero => exact hx
  | succ m ih => exact ih _ (xtime_lt x hx)

theorem rcon_lt (j : Nat) : rcon j < 256 := xtimes_lt _ 1 (by omega)

theorem xorBytes_length (s k : List Nat) :
    (xorBytes s k).length = min s.length k.length := by
  unfold xorBytes
  rw [List.length_zipWith]

theorem xorBytes_lt (s k : List Nat) (hs : ∀ x ∈ s, x < 256) (hk : ∀ x ∈ k, x < 256) :
    ∀ x ∈ xorBytes s k, x < 256 := by
  induction s generalizing k with
  | nil => intro x hx; simp [xorBytes] at hx
  | cons a s ih =>
      cases k with
      | nil => intro x hx; simp [xorBytes] at hx
      | cons b k =>
          intro x hx
          simp only [xorBytes, List.zipWith_cons_cons, List.mem_cons] at hx
          rcases hx with rfl | hx
          · exact xor_lt_256 (hs a (by simp)) (hk b (by simp))
          · exact ih k (fun y hy => hs y (by simp [hy])) (fun y hy => hk y (by simp [hy])) x hx

theorem xorBytes_cancel (x k : List Nat) (h : x.length ≤ k.length) :
    xorBytes (xorBytes x k) k = x := by
  induction x generalizing k with
  | nil => simp [xorBytes]
  | cons a s ih =>
      cases k with
      | nil => simp at h
      | cons b k =>
          simp only [xorBytes, List.zipWith_cons_cons, Nat.xor_cancel_right]
          have hrec := ih k (by simpa using h)
          simp only [xorBytes] at hrec
          rw [hrec]

theorem invSubBytes_subBytes (s : List Nat) (hs : ∀ x ∈ s, x < 256) :
    invSubBytes (subBytes s) = s := by
  induction s with
  | nil => rfl
  | cons a t ih =>
      simp only [subBytes, invSubBytes, List.map_cons]
      rw [invSbox_sbox a (hs a (by simp))]
      have := ih (fun y hy => hs y (by simp [hy]))
      simp only [subBytes, invSubBytes] at this
      rw [this]

theorem subBytes_length (s : List Nat) : (subBytes s).length = s.length := by
  simp [subBytes]

theorem subBytes_lt (s : List Nat) : ∀ x ∈ subBytes s, x < 256 := by
  intro x hx
  simp only [subBytes, List.mem_map] at hx
  obtain ⟨b, _, rfl⟩ := hx
  exact sbox_lt b

theorem exists16 (s : List Nat) (h : s.length = 16) :
    ∃ a0 a1 a2 a3 a4 a5 a6 a7 a8 a9 a10 a11 a12 a13 a14 a15 : Nat,
      s = [a0, a1, a2, a3, a4, a5, a6, a7, a8, a9, a10, a11, a12, a13, a14, a15] := by
  obtain ⟨a0, s, rfl⟩ := List.exists_of_length_succ (n := 15) s (by omega)
  simp only [List.length_cons] at h
  obtain ⟨a1, s, rfl⟩ := List.exists_of_length_succ (n := 14) s (by omega)
  simp only [List.length_cons] at h
  obtain ⟨a2, s, rfl⟩ := List.exists_of_length_succ (n := 13) s (by omega)
  simp only [List.length_cons] at h
  obtain ⟨a3, s, rfl⟩ := List.exists_of_length_succ (n := 12) s (by omega)
  simp only [List.length_cons] at h
  obtain ⟨a4, s, rfl⟩ := List.exists_of_length_succ (n := 11) s (by omega)
  simp only [List.length_cons] at h
  obtain ⟨a5, s, rfl⟩ := List.exists_of_length_succ (n := 10) s (by omega)
  simp only [List.length_cons] at h
  obtain ⟨a6, s, rfl⟩ := List.exists_of_length_succ (n := 9) s (by omega)
  simp only [List.length_cons] at h
  obtain ⟨a7, s, rfl⟩ := List.exists_of_length_succ (n := 8) s (by omega)
  simp only [List.length_cons] at h
  obtain ⟨a8, s, rfl⟩ := List.exists_of_length_succ (n := 7) s (by omega)
  simp only [List.length_cons] at h
  obtain ⟨a9, s, rfl⟩ := List.exists_of_length_succ (n := 6) s (by omega)
  simp only [List.length_cons] at h
  obtain ⟨a10, s, rfl⟩ := List.exists_of_length_succ (n := 5) s (by omega)
  simp only [List.length_cons] at h
  obtain ⟨a11, s, rfl⟩ := List.exists_of_length_succ (n := 4) s (by omega)
  simp only [List.length_cons] at h
  obtain ⟨a12, s, rfl⟩ := List.exists_of_length_succ (n := 3) s (by omega)
  simp only [List.length_cons] at h
  obtain ⟨a13, s, rfl⟩ := List.exists_of_length_succ (n := 2) s (by omega)
  simp only [List.length_cons] at h
  obtain ⟨a14, s, rfl⟩ := List.exists_of_length_succ (n := 1) s (by omega)
  simp only [List.length_cons] at h
  obtain ⟨a15, s, rfl⟩ := List.exists_of_length_succ (n := 0) s (by omega)
  simp only [List.length_cons] at h
  have hnil : s = [] := List.length_eq_zero.mp (by omega)
  subst hnil
  exact ⟨a0, a1, a2, a3, a4, a5, a6, a7, a8, a9, a10, a11, a12, a13, a14, a15, rfl⟩

theorem invShiftRowsL_shiftRowsL (s : List Nat) (h : s.length = 16) :
    invShiftRowsL (shiftRowsL s) = s := by
  obtain ⟨a0, a1, a2, a3, a4, a5, a6, a7, a8, a9, a10, a11, a12, a13, a14, a15, rfl⟩ :=
    exists16 s h
  rfl

theorem shiftRowsL_length (s : List Nat) (h : s.length = 16) :
    (shiftRowsL s).length = 16 := by
  obtain ⟨a0, a1, a2, a3, a4, a5, a6, a7, a8, a9, a10, a11, a12, a13, a14, a15, rfl⟩ :=
    exists16 s h
  rfl

theorem shiftRowsL_lt (s : List Nat) (h : s.length = 16) (hs : ∀ x ∈ s, x < 256) :
    ∀ x ∈ shiftRowsL s, x < 256 := by
  obtain ⟨a0, a1, a2, a3, a4, a5, a6, a7, a8, a9, a10, a11, a12, a13, a14, a15, rfl⟩ :=
    exists16 s h
  intro x hx
  simp only [shiftRowsL, List.mem_cons, List.not_mem_nil, or_false] at hx
  rcases hx with rfl | rfl | rfl | rfl | rfl | rfl | rfl | rfl | rfl | rfl | rfl | rfl |
    rfl | rfl | rfl | rfl <;> exact hs x (by simp)

theorem mixColumns_length (s : List Nat) (h : s.length = 16) :
    (mixColumns s).length = 16 := by
  obtain ⟨a0, a1, a2, a3, a4, a5, a6, a7, a8, a9, a10, a11, a12, a13, a14, a15, rfl⟩ :=
    exists16 s h
  rfl

theorem mixColumns_lt (s : List Nat) (h : s.length = 16) (hs : ∀ x ∈ s, x < 256) :
    ∀ x ∈ mixColumns s, x < 256 := by
  obtain ⟨a0, a1, a2, a3, a4, a5, a6, a7, a8, a9, a10, a11, a12, a13, a14, a15, rfl⟩ :=
    exists16 s h
  have hx : ∀ i ∈ [a0, a1, a2, a3, a4, a5, a6, a7, a8, a9, a10, a11, a12, a13, a14, a15],
      i < 256 := hs
  simp only [List.mem_cons] at hx
  intro x hxm
  simp only [mixColumns, List.mem_cons, List.not_mem_nil, or_false] at hxm
  rcases hxm with rfl | rfl | rfl | rfl | rfl | rfl | rfl | rfl | rfl | rfl | rfl | rfl |
    rfl | rfl | rfl | rfl
  · exact mc0_lt _ _ _ _ (hx a0 (by simp)) (hx a1 (by simp)) (hx a2 (by simp)) (hx a3 (by simp))
  · exact mc1_lt _ _ _ _ (hx a0 (by simp)) (hx a1 (by simp)) (hx a2 (by simp)) (hx a3 (by simp))
  · exact mc2_lt _ _ _ _ (hx a0 (by simp)) (hx a1 (by simp)) (hx a2 (by simp)) (hx a3 (by simp))
  · exact mc3_lt _ _ _ _ (hx a0 (by simp)) (hx a1 (by simp)) (hx a2 (by simp)) (hx a3 (by simp))
  · exact mc0_lt _ _ _ _ (hx a4 (by simp)) (hx a5 (by simp)) (hx a6 (by simp)) (hx a7 (by simp))
  · exact mc1_lt _ _ _ _ (hx a4 (by simp)) (hx a5 (by simp)) (hx a6 (by simp)) (hx a7 (by simp))
  · exact mc2_lt _ _ _ _ (hx a4 (by simp)) (hx a5 (by simp)) (hx a6 (by simp)) (hx a7 (by simp))
  · exact mc3_lt _ _ _ _ (hx a4 (by simp)) (hx a5 (by simp)) (hx a6 (by simp)) (hx a7 (by simp))
  · exact mc0_lt _ _ _ _ (hx a8 (by simp)) (hx a9 (by simp)) (hx a10 (by simp)) (hx a11 (by simp))
  · exact mc1_lt _ _ _ _ (hx a8 (by simp)) (hx a9 (by simp)) (hx a10 (by simp)) (hx a11 (by simp))
  · exact mc2_lt _ _ _ _ (hx a8 (by simp)) (hx a9 (by simp)) (hx a10 (by simp)) (hx a11 (by simp))
  · exact mc3_lt _ _ _ _ (hx a8 (by simp)) (hx a9 (by simp)) (hx a10 (by simp)) (hx a11 (by simp))
  · exact mc0_lt _ _ _ _ (hx a12 (by simp)) (hx a13 (by simp)) (hx a14 (by simp)) (hx a15 (by simp))
  · exact mc1_lt _ _ _ _ (hx a12 (by simp)) (hx a13 (by simp)) (hx a14 (by simp)) (hx a15 (by simp))
  · exact mc2_lt _ _ _ _ (hx a12 (by simp)) (hx a13 (by simp)) (hx a14 (by simp)) (hx a15 (by simp))
  · exact mc3_lt _ _ _ _ (hx a12 (by simp)) (hx a13 (by simp)) (hx a14 (by simp)) (hx a15 (by simp))

theorem invMixColumns_mixColumns (s : List Nat) (h : s.length = 16)
    (hs : ∀ x ∈ s, x < 256) :
    invMixColumns (mixColumns s) = s := by
  obtain ⟨a0, a1, a2, a3, a4, a5, a6, a7, a8, a9, a10, a11, a12, a13, a14, a15, rfl⟩ :=
    exists16 s h
  have hx : ∀ i ∈ [a0, a1, a2, a3, a4, a5, a6, a7, a8, a9, a10, a11, a12, a13, a14, a15],
      i < 256 := hs
  simp only [List.mem_cons] at hx
  have h1 := invMixCol_mixCol a0 a1 a2 a3
    (hx a0 (by simp)) (hx a1 (by simp)) (hx a2 (by simp)) (hx a3 (by simp))
  have h2 := invMixCol_mixCol a4 a5 a6 a7
    (hx a4 (by simp)) (hx a5 (by simp)) (hx a6 (by simp)) (hx a7 (by simp))
  have h3 := invMixCol_mixCol a8 a9 a10 a11
    (hx a8 (by simp)) (hx a9 (by simp)) (hx a10 (by simp)) (hx a11 (by simp))
  have h4 := invMixCol_mixCol a12 a13 a14 a15
    (hx a12 (by simp)) (hx a13 (by simp)) (hx a14 (by simp)) (hx a15 (by simp))
  simp only [mixColumns, invMixColumns]
  rw [h1.1, h1.2.1, h1.2.2.1, h1.2.2.2, h2.1, h2.2.1, h2.2.2.1, h2.2.2.2,
    h3.1, h3.2.1, h3.2.2.1, h3.2.2.2, h4.1, h4.2.1, h4.2.2.1, h4.2.2.2]

theorem xorBytes_cancel_left (p b : List Nat) (h : b.length ≤ p.length) :
    xorBytes p (xorBytes p b) = b := by
  induction b generalizing p with
  | nil => simp [xorBytes]
  | cons x bs ih =>
      cases p with
      | nil => simp at h
      | cons y ps =>
          simp only [xorBytes, List.zipWith_cons_cons, Nat.xor_cancel_left]
          have hrec := ih ps (by simpa using h)
          simp only [xorBytes] at hrec
          rw [hrec]

theorem encRounds_block (ks : List (List Nat)) (s : List Nat)
    (hk : ∀ k ∈ ks, k.length = 16 ∧ ∀ b ∈ k, b < 256)
    (hlen : s.length = 16) (hs : ∀ x ∈ s, x < 256) :
    (encRounds ks s).length = 16 ∧ ∀ x ∈ encRounds ks s, x < 256 := by
  induction ks generalizing s with
  | nil => exact ⟨hlen, hs⟩
  | cons k ks ih =>
      have hkk := hk k (by simp)
      have hsb : (subBytes s).length = 16 := by rw [subBytes_length]; exact hlen
      have hsr : (shiftRowsL (subBytes s)).length = 16 := shiftRowsL_length _ hsb
      have hsrb : ∀ x ∈ shiftRowsL (subBytes s), x < 256 :=
        shiftRowsL_lt _ hsb (subBytes_lt s)
      cases ks with
      | nil =>
          simp only [encRounds]
          constructor
          · rw [xorBytes_length, hsr, hkk.1]
            omega
          · exact xorBytes_lt _ _ hsrb hkk.2
      | cons k2 ks2 =>
          simp only [encRounds]
          have hmc : (mixColumns (shiftRowsL (subBytes s))).length = 16 :=
            mixColumns_length _ hsr
          have hmcb : ∀ x ∈ mixColumns (shiftRowsL (subBytes s)), x < 256 :=
            mixColumns_lt _ hsr hsrb
          exact ih _ (fun w hw => hk w (by simp [hw]))
            (by rw [xorBytes_length, hmc, hkk.1]; omega)
            (xorBytes_lt _ _ hmcb hkk.2)

theorem decRounds_encRounds (ks : List (List Nat)) (s : List Nat)
    (hk : ∀ k ∈ ks, k.length = 16 ∧ ∀ b ∈ k, b < 256)
    (hlen : s.length = 16) (hs : ∀ x ∈ s, x < 256) :
    decRounds ks (encRounds ks s) = s := by
  induction ks generalizing s with
  | nil => rfl
  | cons k ks ih =>
      have hkk := hk k (by simp)
      have hsb : (subBytes s).length = 16 := by rw [subBytes_length]; exact hlen
      have hsr : (shiftRowsL (subBytes s)).length = 16 := shiftRowsL_length _ hsb
      have hsrb : ∀ x ∈ shiftRowsL (subBytes s), x < 256 :=
        shiftRowsL_lt _ hsb (subBytes_lt s)
      cases ks with
      | nil =>
          simp only [encRounds, decRounds]
          rw [xorBytes_cancel _ _ (by rw [hsr, hkk.1]),
            invShiftRowsL_shiftRowsL _ hsb, invSubBytes_subBytes s hs]
      | cons k2 ks2 =>
          simp only [encRounds, decRounds]
          have hmc : (mixColumns (shiftRowsL (subBytes s))).length = 16 :=
            mixColumns_length _ hsr
          have hmcb : ∀ x ∈ mixColumns (shiftRowsL (subBytes s)), x < 256 :=
            mixColumns_lt _ hsr hsrb
          rw [ih _ (fun w hw => hk w (by simp [hw]))
              (by rw [xorBytes_length, hmc, hkk.1]; omega)
              (xorBytes_lt _ _ hmcb hkk.2),
            xorBytes_cancel _ _ (by rw [hmc, hkk.1]),
            invMixColumns_mixColumns _ hsr hsrb,
            invShiftRowsL_shiftRowsL _ hsb, invSubBytes_subBytes s hs]

theorem aesDecBlock_aesEncBlock (rks : List (List Nat)) (s : List Nat)
    (hk : ∀ k ∈ rks, k.length = 16 ∧ ∀ b ∈ k, b < 256)
    (hlen : s.length = 16) (hs : ∀ x ∈ s, x < 256) :
    aesDecBlock rks (aesEncBlock rks s) = s := by
  cases rks with
  | nil => rfl
  | cons k0 rest =>
      have hk0 := hk k0 (by simp)
      simp only [aesEncBlock, aesDecBlock]
      rw [decRounds_encRounds rest _ (fun w hw => hk w (by simp [hw]))
          (by rw [xorBytes_length, hlen, hk0.1]; omega)
          (xorBytes_lt _ _ hs hk0.2),
        xorBytes_cancel _ _ (by rw [hlen, hk0.1])]

theorem aesEncBlock_block (rks : List (List Nat)) (s : List Nat)
    (hk : ∀ k ∈ rks, k.length = 16 ∧ ∀ b ∈ k, b < 256)
    (hlen : s.length = 16) (hs : ∀ x ∈ s, x < 256) :
    (aesEncBlock rks s).length = 16 ∧ ∀ x ∈ aesEncBlock rks s, x < 256 := by
  cases rks with
  | nil => exact ⟨hlen, hs⟩
  | cons k0 rest =>
      have hk0 := hk k0 (by simp)
      simp only [aesEncBlock]
      exact encRounds_block rest _ (fun w hw => hk w (by simp [hw]))
        (by rw [xorBytes_length, hlen, hk0.1]; omega)
        (xorBytes_lt _ _ hs hk0.2)

theorem cbcDec_cbcEnc (rks : List (List Nat))
    (hk : ∀ k ∈ rks, k.length = 16 ∧ ∀ b ∈ k, b < 256) :
    ∀ (bs : List (List Nat)) (prev : List Nat),
      prev.length = 16 → (∀ x ∈ prev, x < 256) →
      (∀ b ∈ bs, b.length = 16 ∧ ∀ x ∈ b, x < 256) →
      cbcDec rks prev (cbcEnc rks prev bs) = bs := by
  intro bs
  induction bs with
  | nil => intro prev _ _ _; rfl
  | cons b bs ih =>
      intro prev hprevlen hprevlt hbs
      have hb := hbs b (by simp)
      have hxlen : (xorBytes prev b).length = 16 := by
        rw [xorBytes_length, hprevlen, hb.1]; omega
      have hxlt : ∀ x ∈ xorBytes prev b, x < 256 := xorBytes_lt _ _ hprevlt hb.2
      have hc := aesEncBlock_block rks _ hk hxlen hxlt
      simp only [cbcEnc, cbcDec]
      rw [aesDecBlock_aesEncBlock rks _ hk hxlen hxlt,
        xorBytes_cancel_left _ _ (by rw [hb.1, hprevlen]),
        ih _ hc.1 hc.2 (fun w hw => hbs w (by simp [hw]))]

theorem flatten_chunksOf {α : Type} (n : Nat) (l : List α) :
    (chunksOf (n + 1) l).flatten = l := by
  suffices h : ∀ (m : Nat) (l : List α), l.length = m → (chunksOf (n + 1) l).flatten = l from
    h l.length l rfl
  intro m
  induction m using Nat.strong_induction_on with
  | _ m ih =>
      intro l hlen
      cases l with
      | nil => simp [chunksOf_nil]
      | cons x xs =>
          rw [chunksOf_cons_of_ne_nil n _ (by simp)]
          simp only [List.flatten_cons]
          rw [ih ((x :: xs).drop (n + 1)).length (by simp at hlen ⊢; omega) _ rfl,
            List.take_append_drop]

theorem chunksOf_pieces {α : Type} (n : Nat) (l : List α) (hdvd : (n + 1) ∣ l.length) :
    ∀ c ∈ chunksOf (n + 1) l, c.length = n + 1 := by
  suffices h : ∀ (m : Nat) (l : List α), l.length = m → (n + 1) ∣ l.length →
      ∀ c ∈ chunksOf (n + 1) l, c.length = n + 1 from h l.length l rfl hdvd
  clear hdvd l
  intro m
  induction m using Nat.strong_induction_on with
  | _ m ih =>
      intro l hlen hdvd
      cases l with
      | nil => simp [chunksOf_nil]
      | cons x xs =>
          subst hlen
          have hge : n + 1 ≤ (x :: xs).length := by
            rcases hdvd with ⟨q, hq⟩
            rcases Nat.eq_zero_or_pos q with rfl | hqpos
            · simp at hq
            · calc n + 1 ≤ (n + 1) * q := Nat.le_mul_of_pos_right _ hqpos
              _ = (x :: xs).length := hq.symm
          rw [chunksOf_cons_of_ne_nil n _ (by simp)]
          intro c hc
          rcases List.mem_cons.mp hc with rfl | hc2
          · rw [List.length_take]
            omega
          · refine ih ((x :: xs).drop (n + 1)).length (by simp; omega) _ rfl
              ?_ c hc2
            rw [List.length_drop]
            exact Nat.dvd_sub' hdvd dvd_rfl

theorem chunksOf_flatten_eq {α : Type} (n : Nat) (bs : List (List α))
    (hbs : ∀ b ∈ bs, b.length = n + 1) :
    chunksOf (n + 1) bs.flatten = bs := by
  induction bs with
  | nil => simp [chunksOf_nil]
  | cons b bs ih =>
      have hb := hbs b (by simp)
      have hbne : b ≠ [] := by
        intro hcon; rw [hcon] at hb; simp at hb
      have hne : (b :: bs).flatten ≠ [] := by
        simp only [List.flatten_cons]
        intro hcon
        exact hbne (List.append_eq_nil.mp hcon).1
      rw [List.flatten_cons, chunksOf_cons_of_ne_nil n _ (by rwa [← List.flatten_cons]),
        ← hb, List.take_left, List.drop_left, hb,
        ih (fun w hw => hbs w (by simp [hw]))]

theorem pad16_length (data : List Nat) :
    (pad16 data).length = data.length + (16 - data.length % 16) := by
  simp [pad16]

theorem pad16_mod (data : List Nat) : (pad16 data).length % 16 = 0 := by
  rw [pad16_length]
  omega

theorem pad16_lt (data : List Nat) (hd : ∀ x ∈ data, x < 256) :
    ∀ x ∈ pad16 data, x < 256 := by
  intro x hx
  rcases List.mem_append.mp hx with h | h
  · exact hd x h
  · rw [List.mem_replicate] at h
    omega

theorem pad16_ne_nil (data : List Nat) : pad16 data ≠ [] := by
  intro hcon
  have := congrArg List.length hcon
  rw [pad16_length] at this
  simp at this
  omega

theorem unpad16_pad16 (data : List Nat) : unpad16 (pad16 data) = some data := by
  set p := 16 - data.length % 16 with hp
  have hp1 : 1 ≤ p := by omega
  have hp16 : p ≤ 16 := by omega
  have hrep : List.replicate p p = List.replicate (p - 1) p ++ [p] := by
    conv_lhs => rw [show p = (p - 1) + 1 by omega]
    rw [List.replicate_succ']
    congr 2
      <;> omega
  have hpad : pad16 data = (data ++ List.replicate (p - 1) p) ++ [p] := by
    rw [pad16, ← hp, hrep, List.append_assoc]
  have hlast : (pad16 data).getLast? = some p := by
    rw [hpad, List.getLast?_concat]
  have hlen : (pad16 data).length = data.length + p := by
    rw [pad16_length, ← hp]
  unfold unpad16
  rw [hlast]
  dsimp only
  have hdropall : ((pad16 data).drop ((pad16 data).length - p)).all (fun b => b = p)
      = true := by
    have hdrop : (pad16 data).drop ((pad16 data).length - p) = List.replicate p p := by
      rw [hlen, pad16, ← hp, show data.length + p - p = data.length by omega,
        List.drop_left]
    rw [hdrop, List.all_eq_true]
    intro b hb
    rw [List.mem_replicate] at hb
    simp [hb.2]
  rw [if_pos ⟨hp1, hp16, by omega, hdropall⟩]
  rw [hlen, pad16, ← hp, show data.length + p - p = data.length by omega, List.take_left]

theorem subWord_props (w : List Nat) :
    (subWord w).length = w.length ∧ ∀ x ∈ subWord w, x < 256 := by
  constructor
  · simp [subWord]
  · intro x hx
    simp only [subWord, List.mem_map] at hx
    obtain ⟨b, _, rfl⟩ := hx
    exact sbox_lt b

theorem rotWordL_props (w : List Nat) :
    (rotWordL w).length = w.length ∧ ∀ x ∈ rotWordL w, x ∈ w := by
  cases w with
  | nil => exact ⟨rfl, by simp [rotWordL]⟩
  | cons a rest =>
      constructor
      · simp [rotWordL]
      · intro x hx
        simp only [rotWordL, List.mem_append, List.mem_singleton] at hx
        rcases hx with h | rfl
        · exact List.mem_cons_of_mem _ h
        · exact List.mem_cons_self _ _

theorem ksTemp_props (nk : Nat) (acc : List (List Nat)) (hacc : 1 ≤ acc.length)
    (h2 : ∀ w ∈ acc, w.length = 4 ∧ ∀ b ∈ w, b < 256) :
    (ksTemp nk acc).length = 4 ∧ ∀ b ∈ ksTemp nk acc, b < 256 := by
  have hprev : (acc.getD (acc.length - 1) []).length = 4 ∧
      ∀ b ∈ acc.getD (acc.length - 1) [], b < 256 := by
    rw [List.getD_eq_getElem _ _ (by omega)]
    exact h2 _ (List.getElem_mem _)
  simp only [ksTemp]
  split_ifs with h1 h3
  · have hrot := rotWordL_props (acc.getD (acc.length - 1) [])
    have hsub := subWord_props (rotWordL (acc.getD (acc.length - 1) []))
    constructor
    · rw [xorBytes_length, hsub.1, hrot.1, hprev.1]
      rfl
    · refine xorBytes_lt _ _ hsub.2 ?_
      intro x hx
      simp only [List.mem_cons, List.not_mem_nil, or_false] at hx
      rcases hx with rfl | rfl | rfl | rfl
      · exact rcon_lt _
      all_goals omega
  · have hsub := subWord_props (acc.getD (acc.length - 1) [])
    exact ⟨by rw [hsub.1, hprev.1], fun b hb => hsub.2 b hb⟩
  · exact hprev

theorem expandLoop_words (nk : Nat) (hnk : 1 ≤ nk) (fuel : Nat) :
    ∀ acc : List (List Nat), nk ≤ acc.length →
    (∀ w ∈ acc, w.length = 4 ∧ ∀ b ∈ w, b < 256) →
    (∀ w ∈ expandLoop nk fuel acc, w.length = 4 ∧ ∀ b ∈ w, b < 256) ∧
    (expandLoop nk fuel acc).length = acc.length + fuel := by
  induction fuel with
  | zero =>
      intro acc h1 h2
      exact ⟨h2, by rw [expandLoop]; omega⟩
  | succ f ih =>
      intro acc h1 h2
      rw [expandLoop]
      have hold : (acc.getD (acc.length - nk) []).length = 4 ∧
          ∀ b ∈ acc.getD (acc.length - nk) [], b < 256 := by
        rw [List.getD_eq_getElem _ _ (by omega)]
        exact h2 _ (List.getElem_mem _)
      have htemp := ksTemp_props nk acc (by omega) h2
      have hnew : (xorBytes (acc.getD (acc.length - nk) []) (ksTemp nk acc)).length = 4 ∧
          ∀ b ∈ xorBytes (acc.getD (acc.length - nk) []) (ksTemp nk acc), b < 256 := by
        constructor
        · rw [xorBytes_length, hold.1, htemp.1]
          rfl
        · exact xorBytes_lt _ _ hold.2 htemp.2
      have hstep := ih (acc ++ [xorBytes (acc.getD (acc.length - nk) []) (ksTemp nk acc)])
        (by simp; omega)
        (by
          intro w hw
          rcases List.mem_append.mp hw with h | h
          · exact h2 w h
          · rw [List.mem_singleton] at h
            exact h ▸ hnew)
      refine ⟨hstep.1, ?_⟩
      rw [hstep.2]
      simp
      omega

theorem flatten_length_of_uniform {α : Type} (n : Nat) (bs : List (List α))
    (h : ∀ b ∈ bs, b.length = n) : bs.flatten.length = n * bs.length := by
  induction bs with
  | nil => simp
  | cons b bs ih =>
      simp only [List.flatten_cons, List.length_append, List.length_cons,
        h b (by simp), ih (fun w hw => h w (by simp [hw]))]
      ring

theorem keySchedule_rks (key : List Nat)
    (hlen : key.length = 16 ∨ key.length = 24 ∨ key.length = 32)
    (hb : ∀ x ∈ key, x < 256) :
    ∀ rk ∈ keySchedule key, rk.length = 16 ∧ ∀ b ∈ rk, b < 256 := by
  have hdvd : 4 ∣ key.length := by
    rcases hlen with h | h | h <;> rw [h] <;> norm_num
  have hnk1 : 1 ≤ key.length / 4 := by
    rcases hlen with h | h | h <;> rw [h] <;> norm_num
  have hinit_pieces : ∀ c ∈ chunksOf 4 key, c.length = 4 := chunksOf_pieces 3 key hdvd
  have hinit_mem : ∀ c ∈ chunksOf 4 key, ∀ x ∈ c, x < 256 := by
    intro c hc x hx
    have hmem : x ∈ (chunksOf 4 key).flatten := List.mem_flatten.mpr ⟨c, hc, hx⟩
    rw [flatten_chunksOf 3 key] at hmem
    exact hb x hmem
  have hinit_len : (chunksOf 4 key).length = key.length / 4 := by
    have hfl := flatten_length_of_uniform 4 (chunksOf 4 key) hinit_pieces
    rw [flatten_chunksOf 3 key] at hfl
    omega
  have hwords := expandLoop_words (key.length / 4) hnk1
    (4 * (key.length / 4 + 7) - key.length / 4) (chunksOf 4 key)
    (by rw [hinit_len]) (fun w hw => ⟨hinit_pieces w hw, hinit_mem w hw⟩)
  have hwords_len : (expandLoop (key.length / 4) (4 * (key.length / 4 + 7) - key.length / 4)
      (chunksOf 4 key)).length = 4 * (key.length / 4 + 7) := by
    rw [hwords.2, hinit_len]
    omega
  intro rk hrk
  simp only [keySchedule, List.mem_map] at hrk
  obtain ⟨wchunk, hwchunk, rfl⟩ := hrk
  have hwchunk_len : wchunk.length = 4 := by
    refine chunksOf_pieces 3 _ ?_ wchunk hwchunk
    rw [hwords_len]
    omega
  have hwchunk_words : ∀ w ∈ wchunk, w.length = 4 ∧ ∀ b ∈ w, b < 256 := by
    intro w hw
    have hmem : w ∈ (chunksOf 4 (expandLoop (key.length / 4)
        (4 * (key.length / 4 + 7) - key.length / 4) (chunksOf 4 key))).flatten :=
      List.mem_flatten.mpr ⟨wchunk, hwchunk, hw⟩
    rw [flatten_chunksOf 3] at hmem
    exact hwords.1 w hmem
  constructor
  · rw [flatten_length_of_uniform 4 wchunk (fun w hw => (hwchunk_words w hw).1), hwchunk_len]
  · intro b hbm
    rw [List.mem_flatten] at hbm
    obtain ⟨w, hw, hbw⟩ := hbm
    exact (hwchunk_words w hw).2 b hbw

theorem cbcEnc_blocks (rks : List (List Nat))
    (hk : ∀ k ∈ rks, k.length = 16 ∧ ∀ b ∈ k, b < 256) :
    ∀ (bs : List (List Nat)) (prev : List Nat),
      prev.length = 16 → (∀ x ∈ prev, x < 256) →
      (∀ b ∈ bs, b.length = 16 ∧ ∀ x ∈ b, x < 256) →
      ∀ cb ∈ cbcEnc rks prev bs, cb.length = 16 ∧ ∀ x ∈ cb, x < 256 := by
  intro bs
  induction bs with
  | nil => intro prev _ _ _ cb hcb; simp [cbcEnc] at hcb
  | cons b bs ih =>
      intro prev hprevlen hprevlt hbs cb hcb
      have hb := hbs b (by simp)
      have hxlen : (xorBytes prev b).length = 16 := by
        rw [xorBytes_length, hprevlen, hb.1]; omega
      have hxlt : ∀ x ∈ xorBytes prev b, x < 256 := xorBytes_lt _ _ hprevlt hb.2
      have hc := aesEncBlock_block rks _ hk hxlen hxlt
      simp only [cbcEnc, List.mem_cons] at hcb
      rcases hcb with rfl | hcb
      · exact hc
      · exact ih _ hc.1 hc.2 (fun w hw => hbs w (by simp [hw])) cb hcb

theorem cbcEnc_length (rks : List (List Nat)) :
    ∀ (bs : List (List Nat)) (prev : List Nat), (cbcEnc rks prev bs).length = bs.length := by
  intro bs
  induction bs with
  | nil => intro prev; rfl
  | cons b bs ih =>
      intro prev
      simp only [cbcEnc, List.length_cons, ih]

/-- Core round-trip/length fact for the modelled AES-CBC primitives. -/
theorem encryptAES_core (data key iv : List Nat)
    (hkey : key.length = 16 ∨ key.length = 24 ∨ key.length = 32) (hiv : iv.length = 16)
    (hd : ∀ b ∈ data, b < 256) (hkb : ∀ b ∈ key, b < 256) (hivb : ∀ b ∈ iv, b < 256) :
    ∃ ct, encryptAES data key iv = some ct ∧
      ct.length = data.length + (16 - data.length % 16) ∧
      (∀ x ∈ ct, x < 256) ∧
      decryptAES ct key iv = some data := by
  have hrks := keySchedule_rks key hkey hkb
  have hpdvd : 16 ∣ (pad16 data).length := Nat.dvd_of_mod_eq_zero (pad16_mod data)
  have hblocks_len : ∀ c ∈ chunksOf 16 (pad16 data), c.length = 16 :=
    chunksOf_pieces 15 _ hpdvd
  have hblocks_lt : ∀ c ∈ chunksOf 16 (pad16 data), ∀ x ∈ c, x < 256 := by
    intro c hc x hx
    have hmem : x ∈ (chunksOf 16 (pad16 data)).flatten := List.mem_flatten.mpr ⟨c, hc, hx⟩
    rw [flatten_chunksOf 15] at hmem
    exact pad16_lt data hd x hmem
  have hblocks : ∀ c ∈ chunksOf 16 (pad16 data), c.length = 16 ∧ ∀ x ∈ c, x < 256 :=
    fun c hc => ⟨hblocks_len c hc, hblocks_lt c hc⟩
  have hct_blocks := cbcEnc_blocks (keySchedule key) hrks (chunksOf 16 (pad16 data)) iv
    hiv hivb hblocks
  have hct_count : (cbcEnc (keySchedule key) iv (chunksOf 16 (pad16 data))).length =
      (chunksOf 16 (pad16 data)).length := cbcEnc_length _ _ _
  have hblock_count : (chunksOf 16 (pad16 data)).length * 16 = (pad16 data).length := by
    have hfl := flatten_length_of_uniform 16 (chunksOf 16 (pad16 data)) hblocks_len
    rw [flatten_chunksOf 15] at hfl
    omega
  refine ⟨(cbcEnc (keySchedule key) iv (chunksOf 16 (pad16 data))).flatten, ?_, ?_, ?_, ?_⟩
  · rw [encryptAES, if_pos ⟨hkey, hiv⟩]
  · rw [flatten_length_of_uniform 16 _ (fun cb hcb => (hct_blocks cb hcb).1), hct_count]
    rw [pad16_length] at hblock_count
    omega
  · intro x hx
    rw [List.mem_flatten] at hx
    obtain ⟨cb, hcb, hxcb⟩ := hx
    exact (hct_blocks cb hcb).2 x hxcb
  · have hmod : (cbcEnc (keySchedule key) iv (chunksOf 16 (pad16 data))).flatten.length
        % 16 = 0 := by
      rw [flatten_length_of_uniform 16 _ (fun cb hcb => (hct_blocks cb hcb).1)]
      omega
    rw [decryptAES, if_pos ⟨hkey, hiv, hmod⟩,
      chunksOf_flatten_eq 15 _ (fun cb hcb => (hct_blocks cb hcb).1),
      cbcDec_cbcEnc (keySchedule key) hrks _ iv hiv hivb hblocks,
      flatten_chunksOf 15 (pad16 data), unpad16_pad16]

/-- C1: AES round trip — for every `data`, every `key` with length in
{16, 24, 32} and every 16-byte `iv` (all byte strings),
`decryptAES (encryptAES data key iv) key iv = data`. -/
theorem claim_C1_aes_round_trip (data key iv : List Nat)
    (hkey : key.length = 16 ∨ key.length = 24 ∨ key.length = 32) (hiv : iv.length = 16)
    (hd : ∀ b ∈ data, b < 256) (hkb : ∀ b ∈ key, b < 256) (hivb : ∀ b ∈ iv, b < 256) :
    (encryptAES data key iv).bind (fun ct => decryptAES ct key iv) = some data := by
  obtain ⟨ct, h1, _, _, h4⟩ := encryptAES_core data key iv hkey hiv hd hkb hivb
  rw [h1]
  simpa using h4

/-- C1 witness: the spec's concrete scenario — key and IV of 16 zero bytes,
data `"hello"`. -/
theorem claim_C1_aes_round_trip_witness :
    ((List.replicate 16 0 : List Nat).length = 16 ∨
      (List.replicate 16 0 : List Nat).length = 24 ∨
      (List.replicate 16 0 : List Nat).length = 32) ∧
    (List.replicate 16 0 : List Nat).length = 16 ∧
    (encryptAES [104, 101, 108, 108, 111] (List.replicate 16 0)
        (List.replicate 16 0)).bind
      (fun ct => decryptAES ct (List.replicate 16 0) (List.replicate 16 0)) =
      some [104, 101, 108, 108, 111] :=
  ⟨by decide, by decide,
    claim_C1_aes_round_trip [104, 101, 108, 108, 111] (List.replicate 16 0)
      (List.replicate 16 0) (by decide) (by decide) (by decide) (by decide) (by decide)⟩

/-- C4: AES ciphertext length — for every `data` of length `n` (with
`n + 16` in the `size_t` range), every valid key and 16-byte IV, the
ciphertext length equals `expectedAESCipherLength n = (n / 16 + 1) * 16`:
padding always appends a full extra block, even when `n` is a multiple of
16. -/
theorem claim_C4_cipher_length (data key iv : List Nat)
    (hkey : key.length = 16 ∨ key.length = 24 ∨ key.length = 32) (hiv : iv.length = 16)
    (hd : ∀ b ∈ data, b < 256) (hkb : ∀ b ∈ key, b < 256) (hivb : ∀ b ∈ iv, b < 256)
    (hn : data.length + 16 < 2 ^ 64) :
    (encryptAES data key iv).map List.length = some (expectedAESCipherLength data.length) ∧
    expectedAESCipherLength data.length = (data.length / 16 + 1) * 16 := by
  have hexp : expectedAESCipherLength data.length = (data.length / 16 + 1) * 16 := by
    unfold expectedAESCipherLength AES_BSIZE
    have := Nat.div_mul_le_self data.length 16
    exact Nat.mod_eq_of_lt (by omega)
  obtain ⟨ct, h1, h2, _, _⟩ := encryptAES_core data key iv hkey hiv hd hkb hivb
  refine ⟨?_, hexp⟩
  rw [h1]
  have hmap : (some ct).map List.length = some ct.length := rfl
  rw [hmap, h2, hexp]
  congr 1
  omega

/-- C4 witness: a 5-byte input under a 16-byte key and IV yields exactly 16
bytes of ciphertext. -/
theorem claim_C4_cipher_length_witness :
    (encryptAES [1, 2, 3, 4, 5] (List.replicate 16 7) (List.replicate 16 9)).map
      List.length = some (expectedAESCipherLength 5) ∧
    expectedAESCipherLength 5 = 16 :=
  ⟨(claim_C4_cipher_length [1, 2, 3, 4, 5] (List.replicate 16 7) (List.replicate 16 9)
      (by decide) (by decide) (by decide) (by decide) (by decide) (by norm_num)).1,
   by norm_num [expectedAESCipherLength, AES_BSIZE]⟩

theorem expectedBase64Length_formula (n : Nat) (hn : 4 * n + 3 < 2 ^ 64) :
    expectedBase64Length n = 4 * ((n + 2) / 3) := by
  have hm : 4 * n % 2 ^ 64 = 4 * n := Nat.mod_eq_of_lt (by omega)
  have hx : 4 * n / 3 + 3 < 2 ^ 64 := by omega
  unfold expectedBase64Length
  rw [hm, and_mask4 _ hx]
  omega

/-- C5: for every `n` in the non-wrapping range of `std::size_t`
(`4 * n + 3 < 2 ^ 64`), `expectedBase64Length n` equals `4 * n / 3 + 3`
rounded down to a multiple of 4, and this value is the exact output length
of `base64Encode` on any input of length `n`. -/
theorem claim_C5_expectedBase64Length (n : Nat) (hn : 4 * n + 3 < 2 ^ 64) :
    expectedBase64Length n = (4 * n / 3 + 3) - (4 * n / 3 + 3) % 4 ∧
    ∀ l : List Nat, l.length = n → (base64Encode l).length = expectedBase64Length n := by
  have hval := expectedBase64Length_formula n hn
  constructor
  · rw [hval]; omega
  · intro l hl
    rw [base64Encode_length, hl, hval]

/-- C5 witness: at `n = 5` the formula gives 8, matching the encoder output
length on a concrete 5-byte input. -/
theorem claim_C5_expectedBase64Length_witness :
    (4 * 5 + 3 < 2 ^ 64) ∧
    expectedBase64Length 5 = (4 * 5 / 3 + 3) - (4 * 5 / 3 + 3) % 4 ∧
    (base64Encode [10, 20, 30, 40, 50]).length = expectedBase64Length 5 :=
  ⟨by norm_num,
   (claim_C5_expectedBase64Length 5 (by norm_num)).1,
   (claim_C5_expectedBase64Length 5 (by norm_num)).2 [10, 20, 30, 40, 50] rfl⟩

theorem expectedAESCipherLength_formula (n : Nat) (hn : n + 16 < 2 ^ 64) :
    expectedAESCipherLength n = (n / 16 + 1) * 16 := by
  unfold expectedAESCipherLength AES_BSIZE
  have := Nat.div_mul_le_self n 16
  exact Nat.mod_eq_of_lt (by omega)

theorem cStr_eq_self (l : List Nat) (h : ∀ b ∈ l, b ≠ 0) : cStr l = l := by
  unfold cStr
  rw [List.takeWhile_eq_self_iff]
  intro x hx
  simp [h x hx]

/-- C8: the hex-key convenience overload (`Ripe.h` line 123-126) passes
`buffer.c_str()` to the `const char*` primitive, so it equals the primitive
applied to the longest prefix of `buffer` with no zero byte, with key
`hexToString hexKey` and key size `hexKey.size() / 2`; plaintexts with an
interior zero byte are silently truncated at that byte. -/
theorem claim_C8_hexKey_overload (buffer hexKey iv key : List Nat)
    (hk : hexToString hexKey = some key) :
    encryptAEShexKey buffer hexKey iv =
      encryptAES (buffer.takeWhile (fun b => b != 0)) key iv ∧
    key.length = hexKey.length / 2 := by
  have hlen : hexKey.length = 2 * key.length := hexToString_length hexKey key hk
  constructor
  · unfold encryptAEShexKey
    rw [hk]
    dsimp only
    have htake : key.take (hexKey.length / 2) = key := by
      rw [hlen, Nat.mul_div_cancel_left _ (by omega), List.take_length]
    rw [htake]
    rfl
  · omega

/-- C8 witness: a buffer with an interior NUL is truncated at that byte;
the key is the decode of the 32-character hex key, of size 32 / 2 = 16. -/
theorem claim_C8_hexKey_overload_witness :
    hexToString (List.replicate 32 48) = some (List.replicate 16 0) ∧
    encryptAEShexKey [104, 0, 105] (List.replicate 32 48) (List.replicate 16 1) =
      encryptAES ([104, 0, 105].takeWhile (fun b => b != 0)) (List.replicate 16 0)
        (List.replicate 16 1) ∧
    (List.replicate 16 0 : List Nat).length = (List.replicate 32 48 : List Nat).length / 2 :=
  ⟨by decide,
   (claim_C8_hexKey_overload [104, 0, 105] (List.replicate 32 48) (List.replicate 16 1)
      (List.replicate 16 0) (by decide)).1,
   (claim_C8_hexKey_overload [104, 0, 105] (List.replicate 32 48) (List.replicate 16 1)
      (List.replicate 16 0) (by decide)).2⟩

theorem splitOnByte_no_delim (d : Nat) (xs : List Nat) (hxs : ∀ c ∈ xs, c ≠ d) :
    splitOnByte d xs = [xs] := by
  induction xs with
  | nil => rfl
  | cons c r ih =>
      have hcd : c ≠ d := hxs c (by simp)
      simp only [splitOnByte, if_neg hcd]
      rw [ih (fun x hx => hxs x (by simp [hx]))]

theorem splitOnByte_append (d : Nat) (xs rest : List Nat) (hxs : ∀ c ∈ xs, c ≠ d) :
    splitOnByte d (xs ++ d :: rest) = xs :: splitOnByte d rest := by
  induction xs with
  | nil =>
      simp [splitOnByte]
  | cons c r ih =>
      have hcd : c ≠ d := hxs c (by simp)
      simp only [List.cons_append, splitOnByte, if_neg hcd, List.append_eq]
      rw [ih (fun x hx => hxs x (by simp [hx]))]

/-- Success shape of `prepareData` under a valid hex key and IV. -/
theorem prepareData_spec (data hexKey clientId iv key : List Nat)
    (hk : hexToString hexKey = some key)
    (hkey : key.length = 16 ∨ key.length = 24 ∨ key.length = 32)
    (hiv : iv.length = 16) (hivb : ∀ b ∈ iv, b < 256)
    (hd : ∀ b ∈ data, b < 256) (hd0 : ∀ b ∈ data, b ≠ 0) :
    ∃ ct, encryptAES data key iv = some ct ∧
      ct.length = data.length + (16 - data.length % 16) ∧
      (∀ x ∈ ct, x < 256) ∧
      decryptAES ct key iv = some data ∧
      prepareData data hexKey clientId iv =
        some (decDigits ct.length ++ 58 :: (stringToHex iv ++ 58 ::
          ((if cStr clientId = [] then [] else cStr clientId ++ [58]) ++
            base64Encode ct))) := by
  have hcs : cStr data = data := cStr_eq_self data hd0
  obtain ⟨ct, h1, h2, h3, h4⟩ := encryptAES_core data key iv hkey hiv hd
    (hexToString_bytes_lt hexKey key hk) hivb
  refine ⟨ct, h1, h2, h3, h4, ?_⟩
  unfold prepareData
  rw [hk]
  dsimp only
  rw [hcs, h1]

/-- C3: size prediction — `expectedDataSize plainSize clientIdSize` equals
the exact length of the envelope returned by `prepareData` for a NUL-free
plaintext of length `plainSize` and a NUL-free client id of length
`clientIdSize`, for any valid hex key and 16-byte IV (plaintext length
below `2 ^ 60`, so that no `size_t` formula wraps). -/
theorem claim_C3_expectedDataSize (data hexKey clientId iv key : List Nat)
    (hk : hexToString hexKey = some key)
    (hkey : key.length = 16 ∨ key.length = 24 ∨ key.length = 32)
    (hiv : iv.length = 16) (hivb : ∀ b ∈ iv, b < 256)
    (hd : ∀ b ∈ data, b < 256) (hd0 : ∀ b ∈ data, b ≠ 0)
    (hc0 : ∀ b ∈ clientId, b ≠ 0)
    (hn : data.length < 2 ^ 60) :
    (prepareData data hexKey clientId iv).map List.length =
      some (expectedDataSize data.length clientId.length) := by
  obtain ⟨ct, h1, h2, h3, _, h5⟩ :=
    prepareData_spec data hexKey clientId iv key hk hkey hiv hivb hd hd0
  have hccs : cStr clientId = clientId := cStr_eq_self clientId hc0
  have haes : expectedAESCipherLength data.length = ct.length := by
    rw [expectedAESCipherLength_formula data.length (by omega), h2]
    omega
  have hb64 : expectedBase64Length ct.length = 4 * ((ct.length + 2) / 3) := by
    refine expectedBase64Length_formula ct.length ?_
    have : ct.length ≤ data.length + 16 := by omega
    have h60 : (2 : Nat) ^ 60 * 4 + 67 < 2 ^ 64 := by norm_num
    omega
  rw [h5]
  have hmap : ∀ l : List Nat, (some l).map List.length = some l.length := fun _ => rfl
  rw [hmap]
  congr 1
  rw [hccs]
  simp only [List.length_append, List.length_cons, decDigits_length,
    stringToHex_length, base64Encode_length, hiv]
  unfold expectedDataSize
  rw [haes, hb64]
  by_cases hcid : clientId = []
  · rw [if_pos hcid, hcid]
    simp only [List.length_append, List.length_cons, List.length_nil]
    rw [if_neg (by omega : ¬ (0 : Nat) < 0)]
    omega
  · rw [if_neg hcid, if_pos (by
      cases clientId with
      | nil => exact absurd rfl hcid
      | cons x xs => simp)]
    simp only [List.length_append, List.length_cons, List.length_nil]
    omega

/-- C3 witness: a 5-byte plaintext and the 7-byte client id `"client1"`
under a 32-hex-character key and a concrete IV. -/
theorem claim_C3_expectedDataSize_witness :
    hexToString (List.replicate 32 48) = some (List.replicate 16 0) ∧
    (prepareData [104, 101, 108, 108, 111] (List.replicate 32 48)
        [99, 108, 105, 101, 110, 116, 49] (List.replicate 16 3)).map List.length =
      some (expectedDataSize 5 7) :=
  ⟨by decide,
   claim_C3_expectedDataSize [104, 101, 108, 108, 111] (List.replicate 32 48)
     [99, 108, 105, 101, 110, 116, 49] (List.replicate 16 3) (List.replicate 16 0)
     (by decide) (by decide) (by decide) (by decide) (by decide) (by decide) (by decide)
     (by norm_num)⟩

/-- C2: envelope round trip — for every NUL-free `data` and valid hex key,
the envelope `prepareData data hexKey "client1" iv` parses and decrypts
back to `data` under the same hex key, and the envelope splits at colons
into exactly the four fields `<cipherLength>`, `<ivHex>`, `<clientId>`,
`<base64Payload>`. -/
theorem claim_C2_envelope_round_trip (data hexKey iv key : List Nat)
    (hk : hexToString hexKey = some key)
    (hkey : key.length = 16 ∨ key.length = 24 ∨ key.length = 32)
    (hiv : iv.length = 16) (hivb : ∀ b ∈ iv, b < 256)
    (hd : ∀ b ∈ data, b < 256) (hd0 : ∀ b ∈ data, b ≠ 0) :
    (prepareData data hexKey [99, 108, 105, 101, 110, 116, 49] iv).bind
      (fun env => parsePrepared env hexKey) = some data ∧
    ∃ env ct, prepareData data hexKey [99, 108, 105, 101, 110, 116, 49] iv = some env ∧
      encryptAES data key iv = some ct ∧
      splitOnByte 58 env =
        [decDigits ct.length, stringToHex iv, [99, 108, 105, 101, 110, 116, 49],
          base64Encode ct] := by
  obtain ⟨ct, h1, h2, h3, h4, h5⟩ :=
    prepareData_spec data hexKey [99, 108, 105, 101, 110, 116, 49] iv key hk hkey hiv
      hivb hd hd0
  have hclient : (if cStr [99, 108, 105, 101, 110, 116, 49] = [] then []
      else cStr [99, 108, 105, 101, 110, 116, 49] ++ [58]) =
      [99, 108, 105, 101, 110, 116, 49] ++ [58] := by decide
  rw [hclient] at h5
  have henv : prepareData data hexKey [99, 108, 105, 101, 110, 116, 49] iv =
      some (decDigits ct.length ++ 58 :: (stringToHex iv ++ 58 ::
        ([99, 108, 105, 101, 110, 116, 49] ++ 58 :: base64Encode ct))) := by
    rw [h5]
    simp
  have hA58 : ∀ c ∈ decDigits ct.length, c ≠ 58 := by
    intro c hc
    have := decDigits_bounds ct.length c hc
    omega
  have hB58 : ∀ c ∈ stringToHex iv, c ≠ 58 := stringToHex_ne_58 iv hivb
  have hC58 : ∀ c ∈ [99, 108, 105, 101, 110, 116, 49], c ≠ 58 := by decide
  have hD58 : ∀ c ∈ base64Encode ct, c ≠ 58 := base64Encode_ne_58 ct h3
  have hsplit : splitOnByte 58 (decDigits ct.length ++ 58 :: (stringToHex iv ++ 58 ::
      ([99, 108, 105, 101, 110, 116, 49] ++ 58 :: base64Encode ct))) =
      [decDigits ct.length, stringToHex iv, [99, 108, 105, 101, 110, 116, 49],
        base64Encode ct] := by
    rw [splitOnByte_append 58 _ _ hA58, splitOnByte_append 58 _ _ hB58,
      splitOnByte_append 58 _ _ hC58, splitOnByte_no_delim 58 _ hD58]
  refine ⟨?_, _, ct, henv, h1, hsplit⟩
  rw [henv]
  have hbind : ∀ (a : List Nat) (f : List Nat → Option (List Nat)),
      (some a).bind f = f a := fun _ _ => rfl
  rw [hbind]
  unfold parsePrepared
  rw [hsplit]
  dsimp only
  unfold parseFields
  rw [decParse_decDigits, base64Decode_base64Encode ct h3]
  simp only [Option.bind_eq_bind, Option.some_bind, if_pos rfl]
  rw [hk, hexToString_stringToHex iv hivb]
  simp only [Option.some_bind]
  exact h4

/-- C2 witness: data `"hi"`, the 32-character zero hex key, client id
`"client1"` and a concrete IV. -/
theorem claim_C2_envelope_round_trip_witness :
    hexToString (List.replicate 32 48) = some (List.replicate 16 0) ∧
    (prepareData [104, 105] (List.replicate 32 48)
        [99, 108, 105, 101, 110, 116, 49] (List.replicate 16 2)).bind
      (fun env => parsePrepared env (List.replicate 32 48)) = some [104, 105] :=
  ⟨by decide,
   (claim_C2_envelope_round_trip [104, 105] (List.replicate 32 48) (List.replicate 16 2)
     (List.replicate 16 0) (by decide) (by decide) (by decide) (by decide) (by decide)
     (by decide)).1⟩

theorem powModT_eq (f : Nat) : ∀ a b n : Nat, b < 2 ^ f → powModT f a b n = a ^ b % n := by
  induction f with
  | zero =>
      intro a b n hb
      have hb0 : b = 0 := by simp at hb; omega
      subst hb0
      simp [powModT]
  | succ g ih =>
      intro a b n hb
      by_cases h0 : b = 0
      · subst h0
        simp [powModT]
      · have h2g : (2 : Nat) ^ (g + 1) = 2 ^ g * 2 := by rw [pow_succ]
        have hrec := ih (a * a % n) (b / 2) n (by omega)
        simp only [powModT, if_neg h0]
        rw [hrec]
        have hmul : (a * a % n) ^ (b / 2) % n = (a * a) ^ (b / 2) % n :=
          (Nat.pow_mod (a * a) (b / 2) n).symm
        have haa : (a * a) ^ (b / 2) = a ^ (2 * (b / 2)) := by
          rw [← pow_two, ← pow_mul]
        by_cases hodd : b % 2 = 1
        · rw [if_pos hodd, hmul, haa, Nat.mod_mul_mod, ← pow_succ,
            show 2 * (b / 2) + 1 = b by omega]
        · rw [if_neg hodd, hmul, haa, show 2 * (b / 2) = b by omega]

theorem powMod_eq (a b n : Nat) : powMod a b n = a ^ b % n :=
  powModT_eq b a b n (Nat.lt_two_pow b)

theorem ofBytesBE_foldl (l : List Nat) : ∀ acc : Nat,
    l.foldl (fun acc b => acc * 256 + b) acc = acc * 256 ^ l.length + ofBytesBE l := by
  induction l with
  | nil => intro acc; simp [ofBytesBE]
  | cons b r ih =>
      intro acc
      simp only [List.foldl_cons, List.length_cons, ofBytesBE]
      rw [ih (acc * 256 + b), ih (0 * 256 + b)]
      ring

theorem ofBytesBE_cons (b : Nat) (l : List Nat) :
    ofBytesBE (b :: l) = b * 256 ^ l.length + ofBytesBE l := by
  have h1 : ofBytesBE (b :: l) = l.foldl (fun acc c => acc * 256 + c) (0 * 256 + b) := rfl
  rw [h1, show (0 : Nat) * 256 + b = b by omega, ofBytesBE_foldl l b]

theorem ofBytesBE_concat (l : List Nat) (b : Nat) :
    ofBytesBE (l ++ [b]) = ofBytesBE l * 256 + b := by
  unfold ofBytesBE
  rw [List.foldl_append]
  rfl

theorem ofBytesBE_lt (l : List Nat) (hl : ∀ b ∈ l, b < 256) :
    ofBytesBE l < 256 ^ l.length := by
  induction l with
  | nil => simp [ofBytesBE]
  | cons b r ih =>
      rw [ofBytesBE_cons]
      have hb : b < 256 := hl b (by simp)
      have hr := ih (fun x hx => hl x (by simp [hx]))
      calc b * 256 ^ r.length + ofBytesBE r
          < b * 256 ^ r.length + 256 ^ r.length := by omega
      _ = (b + 1) * 256 ^ r.length := by ring
      _ ≤ 256 * 256 ^ r.length := Nat.mul_le_mul_right _ (by omega)
      _ = 256 ^ (b :: r).length := by rw [List.length_cons, pow_succ]; ring

theorem ofBytesBE_zeros_append (j : Nat) (t : List Nat) :
    ofBytesBE (List.replicate j 0 ++ t) = ofBytesBE t := by
  induction j with
  | zero => simp
  | succ m ih =>
      rw [List.replicate_succ, List.cons_append, ofBytesBE_cons, ih]
      omega

theorem toBytesBE_length (k : Nat) : ∀ m : Nat, (toBytesBE k m).length = k := by
  induction k with
  | zero => intro m; rfl
  | succ j ih =>
      intro m
      simp only [toBytesBE, List.length_append, List.length_cons, List.length_nil, ih]

theorem ofBytesBE_toBytesBE (k : Nat) : ∀ m : Nat, m < 256 ^ k →
    ofBytesBE (toBytesBE k m) = m := by
  induction k with
  | zero =>
      intro m hm
      simp only [pow_zero] at hm
      have : m = 0 := by omega
      subst this
      rfl
  | succ j ih =>
      intro m hm
      simp only [toBytesBE]
      rw [ofBytesBE_concat, ih (m / 256) (by
        rw [pow_succ] at hm
        omega)]
      omega

theorem toBytesBE_ofBytesBE (l : List Nat) (hl : ∀ b ∈ l, b < 256) :
    toBytesBE l.length (ofBytesBE l) = l := by
  induction l using List.reverseRecOn with
  | nil => rfl
  | append_singleton t b ih =>
      have hb : b < 256 := hl b (by simp)
      rw [ofBytesBE_concat, List.length_append, List.length_singleton]
      simp only [toBytesBE]
      have hdiv : (ofBytesBE t * 256 + b) / 256 = ofBytesBE t := by omega
      have hmod : (ofBytesBE t * 256 + b) % 256 = b := by omega
      rw [hdiv, hmod, ih (fun x hx => hl x (by simp [hx]))]

theorem rsaPad_length (k : Nat) (msg : List Nat) (h : msg.length + 1 ≤ k) :
    (rsaPad k msg).length = k := by
  simp only [rsaPad, List.length_append, List.length_replicate, List.length_cons]
  omega

theorem rsaPad_lt (k : Nat) (msg : List Nat) (hm : ∀ b ∈ msg, b < 256) :
    ∀ b ∈ rsaPad k msg, b < 256 := by
  intro b hb
  rcases List.mem_append.mp hb with h | h
  · rw [List.mem_replicate] at h
    omega
  · rcases List.mem_cons.mp h with rfl | h2
    · omega
    · exact hm b h2

theorem rsaUnpad_rsaPad (k : Nat) (msg : List Nat) :
    rsaUnpad (rsaPad k msg) = some msg := by
  unfold rsaUnpad rsaPad
  have hdrop : (List.replicate (k - msg.length - 1) 0 ++ 1 :: msg).dropWhile
      (fun b => b == 0) = 1 :: msg := by
    induction (k - msg.length - 1) with
    | zero => simp [List.dropWhile]
    | succ m ih =>
        rw [List.replicate_succ, List.cons_append, List.dropWhile_cons]
        simp only [beq_self_eq_true, if_true]
        exact ih
  rw [hdrop]

theorem fermat_aux (p c ed m : Nat) (hp : p.Prime) (hed : ed = (p - 1) * c + 1) :
    m ^ ed ≡ m [MOD p] := by
  by_cases hdvd : p ∣ m
  · have hm0 : m ≡ 0 [MOD p] := (Nat.modEq_zero_iff_dvd).mpr hdvd
    calc m ^ ed ≡ 0 ^ ed [MOD p] := hm0.pow ed
    _ = 0 := by
        rw [hed]
        exact zero_pow (by omega)
    _ ≡ m [MOD p] := hm0.symm
  · haveI : Fact p.Prime := ⟨hp⟩
    have hmz : (m : ZMod p) ≠ 0 := by
      rw [Ne, ZMod.natCast_zmod_eq_zero_iff_dvd]
      exact hdvd
    have hferm : (m : ZMod p) ^ (p - 1) = 1 := ZMod.pow_card_sub_one_eq_one hmz
    have hcast : ((m ^ ed : Nat) : ZMod p) = ((m : Nat) : ZMod p) := by
      push_cast
      rw [hed, pow_succ, pow_mul, hferm, one_pow, one_mul]
    exact (ZMod.natCast_eq_natCast_iff _ _ _).mp hcast

theorem rsa_mod_pow (p q e d m : Nat) (hp : p.Prime) (hq : q.Prime) (hpq : p ≠ q)
    (hed : e * d % ((p - 1) * (q - 1)) = 1) (hm : m < p * q) :
    m ^ (e * d) % (p * q) = m := by
  have hdm := Nat.div_add_mod (e * d) ((p - 1) * (q - 1))
  set t := e * d / ((p - 1) * (q - 1)) with ht
  have hedeq : e * d = (p - 1) * (q - 1) * t + 1 := by
    rw [hed] at hdm
    omega
  have hmodp : m ^ (e * d) ≡ m [MOD p] := by
    refine fermat_aux p ((q - 1) * t) (e * d) m hp ?_
    rw [hedeq]
    ring
  have hmodq : m ^ (e * d) ≡ m [MOD q] := by
    refine fermat_aux q ((p - 1) * t) (e * d) m hq ?_
    rw [hedeq]
    ring
  have hcop : p.Coprime q := (Nat.coprime_primes hp hq).mpr hpq
  have hboth := (Nat.modEq_and_modEq_iff_modEq_mul hcop).mp ⟨hmodp, hmodq⟩
  have : m ^ (e * d) % (p * q) = m % (p * q) := hboth
  rw [this, Nat.mod_eq_of_lt hm]

/-- C7: RSA round trip — for every supported key size `bits`, every key
pair that `generateRSAKeyPair bits` can return, and every `data` with
`len data ≤ maxRSABlockSize bits`, decryption of the encryption returns
`data`. -/
theorem claim_C7_rsa_round_trip (bits : Nat) (kp : RSAParams) (data : List Nat)
    (hkp : generatedRSAKeyPair bits kp)
    (hdb : ∀ b ∈ data, b < 256)
    (hlen : data.length ≤ maxRSABlockSize bits) :
    decryptRSA kp (encryptRSA kp data) = some data := by
  obtain ⟨hbits, hp, hq, hpq, hnlo, hnhi, hed, h8, h384, h32⟩ := hkp
  subst hbits
  have h35 : kp.bits < 2 ^ 35 := by
    have : (2 : Nat) ^ 32 < 2 ^ 35 := by norm_num
    omega
  have hmax : maxRSABlockSize kp.bits = kp.bits / 8 - 41 := by
    rw [maxRSABlockSize_formula kp.bits h384 h35]
    omega
  have hk48 : 48 ≤ kp.bits / 8 := by omega
  have hnpos : 0 < rsaN kp := by
    have h2 : (0 : Nat) < 2 ^ (kp.bits - 1) := Nat.pos_pow_of_pos _ (by omega)
    unfold rsaN
    omega
  by_cases hnil : data = []
  · subst hnil
    simp [encryptRSA, rsaChunks, chunksOf_nil, decryptRSA, decryptBlocks]
  · have hdlen : data.length ≤ kp.bits / 8 - 41 := by rw [hmax] at hlen; exact hlen
    have hchunks : rsaChunks kp.bits data = [data] := by
      unfold rsaChunks
      rw [hmax, show kp.bits / 8 - 41 = (kp.bits / 8 - 42) + 1 by omega]
      exact chunksOf_length_le (kp.bits / 8 - 42) data hnil (by omega)
    have hpadlen : (rsaPad (kp.bits / 8) data).length = kp.bits / 8 :=
      rsaPad_length _ data (by omega)
    have hpadlt : ∀ b ∈ rsaPad (kp.bits / 8) data, b < 256 := rsaPad_lt _ data hdb
    have hpow8 : (256 : Nat) ^ (kp.bits / 8) = 2 ^ kp.bits := by
      have h256 : (256 : Nat) = 2 ^ 8 := by norm_num
      rw [h256, ← pow_mul]
      congr 1
      omega
    have hpow8m : (256 : Nat) ^ (kp.bits / 8 - 1) = 2 ^ (kp.bits - 8) := by
      have h256 : (256 : Nat) = 2 ^ 8 := by norm_num
      rw [h256, ← pow_mul]
      congr 1
      omega
    have hmlt : ofBytesBE (rsaPad (kp.bits / 8) data) < 256 ^ (kp.bits / 8 - 1) := by
      unfold rsaPad
      rw [ofBytesBE_zeros_append]
      calc ofBytesBE (1 :: data) < 256 ^ (1 :: data).length :=
            ofBytesBE_lt _ (by
              intro b hb
              rcases List.mem_cons.mp hb with rfl | h2
              · omega
              · exact hdb b h2)
      _ ≤ 256 ^ (kp.bits / 8 - 1) := by
            refine Nat.pow_le_pow_right (by omega) ?_
            simp only [List.length_cons]
            omega
    have hmn : ofBytesBE (rsaPad (kp.bits / 8) data) < rsaN kp := by
      calc ofBytesBE (rsaPad (kp.bits / 8) data) < 256 ^ (kp.bits / 8 - 1) := hmlt
      _ = 2 ^ (kp.bits - 8) := hpow8m
      _ ≤ 2 ^ (kp.bits - 1) := Nat.pow_le_pow_right (by omega) (by omega)
      _ ≤ rsaN kp := hnlo
    have hblock : rsaDecryptBlock (rsaN kp) kp.d (kp.bits / 8)
        (rsaEncryptBlock (rsaN kp) kp.e (kp.bits / 8) data) = some data := by
      unfold rsaEncryptBlock rsaDecryptBlock
      simp only [powMod_eq]
      have hclt : ofBytesBE (rsaPad (kp.bits / 8) data) ^ kp.e % rsaN kp
          < 256 ^ (kp.bits / 8) := by
        calc ofBytesBE (rsaPad (kp.bits / 8) data) ^ kp.e % rsaN kp < rsaN kp :=
              Nat.mod_lt _ hnpos
        _ < 2 ^ kp.bits := hnhi
        _ = 256 ^ (kp.bits / 8) := hpow8.symm
      rw [ofBytesBE_toBytesBE _ _ hclt, ← Nat.pow_mod, ← pow_mul]
      have hrsa : ofBytesBE (rsaPad (kp.bits / 8) data) ^ (kp.e * kp.d) % rsaN kp =
          ofBytesBE (rsaPad (kp.bits / 8) data) :=
        rsa_mod_pow kp.p kp.q kp.e kp.d _ hp hq hpq hed hmn
      have htb := toBytesBE_ofBytesBE (rsaPad (kp.bits / 8) data) hpadlt
      rw [hpadlen] at htb
      rw [hrsa, htb, rsaUnpad_rsaPad]
    unfold encryptRSA decryptRSA
    rw [hchunks]
    simp only [List.map_cons, List.map_nil, decryptBlocks, hblock,
      Option.bind_eq_bind, Option.some_bind]
    simp

theorem zmod_powModT (p a N v f : Nat) (hN : N < 2 ^ f)
    (hpow : powModT f a N p = v) :
    (a : ZMod p) ^ N = ((v : Nat) : ZMod p) := by
  rw [← Nat.cast_pow, ← ZMod.natCast_mod (a ^ N) p, ← powModT_eq f a N p hN, hpow]

theorem zmod_natCast_ne_one (p v : Nat) (h1 : 1 < p) (hv : v < p) (hne : v ≠ 1) :
    ((v : Nat) : ZMod p) ≠ 1 := by
  haveI : Fact (1 < p) := ⟨h1⟩
  intro heq
  have hval := congrArg ZMod.val heq
  rw [ZMod.val_natCast_of_lt hv, ZMod.val_one] at hval
  exact hne hval

set_option maxRecDepth 100000 in
theorem pW_prime : Nat.Prime pW := by
  unfold pW
  have hfac : (2353913150770005286438421033702874906038383291674012942337 - 1 : Nat)
      = 3 * 2 ^ 189 := by norm_num
  refine lucas_primality _
    ((10 : Nat) : ZMod 2353913150770005286438421033702874906038383291674012942337) ?_ ?_
  · have h := zmod_powModT 2353913150770005286438421033702874906038383291674012942337 10
      (2353913150770005286438421033702874906038383291674012942337 - 1) 1 400
      (by norm_num) (by decide)
    rw [Nat.cast_one] at h
    exact h
  · intro r hr hdvd
    rw [hfac] at hdvd
    have hr23 : r = 2 ∨ r = 3 := by
      rcases (Nat.Prime.dvd_mul hr).mp hdvd with h3 | h2
      · exact Or.inr ((Nat.prime_dvd_prime_iff_eq hr (by norm_num)).mp h3)
      · exact Or.inl ((Nat.prime_dvd_prime_iff_eq hr (by norm_num)).mp
          (hr.dvd_of_dvd_pow h2))
    rcases hr23 with rfl | rfl
    · have h := zmod_powModT 2353913150770005286438421033702874906038383291674012942337 10
        ((2353913150770005286438421033702874906038383291674012942337 - 1) / 2)
        2353913150770005286438421033702874906038383291674012942336 400
        (by norm_num) (by decide)
      rw [h]
      exact zmod_natCast_ne_one _ _ (by norm_num) (by norm_num) (by norm_num)
    · have h := zmod_powModT 2353913150770005286438421033702874906038383291674012942337 10
        ((2353913150770005286438421033702874906038383291674012942337 - 1) / 3)
        1050769674290637727069835596912470316057652454543996332259 400
        (by norm_num) (by decide)
      rw [h]
      exact zmod_natCast_ne_one _ _ (by norm_num) (by norm_num) (by norm_num)

set_option maxRecDepth 100000 in
theorem qW_prime : Nat.Prime qW := by
  unfold qW
  have hfac : (10984928036926691336712631490613416228179122027812060397569 - 1 : Nat)
      = 7 * 2 ^ 190 := by norm_num
  refine lucas_primality _
    ((3 : Nat) : ZMod 10984928036926691336712631490613416228179122027812060397569) ?_ ?_
  · have h := zmod_powModT 10984928036926691336712631490613416228179122027812060397569 3
      (10984928036926691336712631490613416228179122027812060397569 - 1) 1 400
      (by norm_num) (by decide)
    rw [Nat.cast_one] at h
    exact h
  · intro r hr hdvd
    rw [hfac] at hdvd
    have hr27 : r = 2 ∨ r = 7 := by
      rcases (Nat.Prime.dvd_mul hr).mp hdvd with h7 | h2
      · exact Or.inr ((Nat.prime_dvd_prime_iff_eq hr (by norm_num)).mp h7)
      · exact Or.inl ((Nat.prime_dvd_prime_iff_eq hr (by norm_num)).mp
          (hr.dvd_of_dvd_pow h2))
    rcases hr27 with rfl | rfl
    · have h := zmod_powModT 10984928036926691336712631490613416228179122027812060397569 3
        ((10984928036926691336712631490613416228179122027812060397569 - 1) / 2)
        10984928036926691336712631490613416228179122027812060397568 400
        (by norm_num) (by decide)
      rw [h]
      exact zmod_natCast_ne_one _ _ (by norm_num) (by norm_num) (by norm_num)
    · have h := zmod_powModT 10984928036926691336712631490613416228179122027812060397569 3
        ((10984928036926691336712631490613416228179122027812060397569 - 1) / 7)
        1180560271909061574531736817930982560089301326366682179536 400
        (by norm_num) (by decide)
      rw [h]
      exact zmod_natCast_ne_one _ _ (by norm_num) (by norm_num) (by norm_num)

set_option maxRecDepth 100000 in
theorem claim_C7_rsa_round_trip_witness :
    generatedRSAKeyPair 384 kpW ∧ (∀ b ∈ ([72, 105] : List Nat), b < 256) ∧
    ([72, 105] : List Nat).length ≤ maxRSABlockSize 384 ∧
    decryptRSA kpW (encryptRSA kpW [72, 105]) = some [72, 105] := by
  have hkp : generatedRSAKeyPair 384 kpW := by
    refine ⟨rfl, pW_prime, qW_prime, ?_, ?_, ?_, ?_, ?_, ?_, ?_⟩
    · norm_num [kpW, pW, qW]
    · norm_num [kpW, pW, qW]
    · norm_num [kpW, pW, qW]
    · norm_num [kpW, pW, qW, dW]
    · norm_num
    · norm_num
    · norm_num
  have hdb : ∀ b ∈ ([72, 105] : List Nat), b < 256 := by decide
  have hlen : ([72, 105] : List Nat).length ≤ maxRSABlockSize 384 := by
    norm_num [maxRSABlockSize]
  exact ⟨hkp, hdb, hlen, claim_C7_rsa_round_trip 384 kpW [72, 105] hkp hdb hlen⟩

end Ripe
